import Mathlib

/-!
# simpleBlog: host routing, backend resolution and the directory-browsing backend

A shallow embedding of `src/lib/server.go`, `src/lib/mediafs.go` and
`src/pkg/mediafs/mediafs.go`.

* A Go `string` is a byte sequence.  It is modelled by `Str = List Char`, one
  character per byte.  Every comparison the code performs is against an ASCII
  byte, so statements quantified over all `Str` cover every byte string.
* The functions of the Go standard library the code calls (`strings.Split`,
  `strings.HasPrefix`, `path.Clean`, `filepath.Join`, ...) are transcribed from
  the standard library for a Unix target (separator `/`, no volume names), where
  `filepath.Clean` is `path.Clean` and `filepath.FromSlash` is the identity.
* The operating system, the template engine and the parts of the repository
  that are not under `src/` (`readDir`, `basicfs.List`, `newBfs`) are fields of
  a record `Sys W B` over an arbitrary world type `W`; every theorem holds for
  every such record.
* A Go `error` is modelled by its message (`errors.New m`, `err.Error ()`).
-/

namespace SimpleBlog

/-- A Go string: a sequence of bytes, one `Char` per byte. -/
abbrev Str := List Char

/-! ## Package `strings` -/

/-- Go `strings.HasPrefix`: `len(s) >= len(prefix) && s[0:len(prefix)] == prefix`. -/
def HasPrefix (s pre : Str) : Bool :=
  decide (pre.length ≤ s.length) && (s.take pre.length == pre)

/-- Go `strings.HasSuffix`: `len(s) >= len(suffix) && s[len(s)-len(suffix):] == suffix`. -/
def HasSuffix (s suf : Str) : Bool :=
  decide (suf.length ≤ s.length) && (s.drop (s.length - suf.length) == suf)

/-- Go `strings.TrimSuffix`: `s` without the trailing `suffix`, once, when it has it. -/
def TrimSuffix (s suf : Str) : Str :=
  if HasSuffix s suf then s.take (s.length - suf.length) else s

/-- Go `strings.Index`: the index of the first instance of `sep` in `s`,
`none` standing for `-1`. -/
def Index : Str → Str → Option Nat
  | [], sep => if HasPrefix [] sep then some 0 else none
  | c :: cs, sep =>
    if HasPrefix (c :: cs) sep then some 0 else (Index cs sep).map (· + 1)

/-- Go `strings.Contains`: `Index(s, substr) >= 0`. -/
def Contains (s sub : Str) : Bool := (Index s sub).isSome

/-- The loop of Go `strings.genSplit` (with `sepSave = 0`): cut `s` at the first
instance of `sep`, continue behind it; `n` bounds the number of cuts. -/
def genSplit : Nat → Str → Str → List Str
  | 0, s, _ => [s]
  | n + 1, s, sep =>
    match Index s sep with
    | none => [s]
    | some m => s.take m :: genSplit n (s.drop (m + sep.length)) sep

/-- Go `strings.Split(s, sep)` for a non-empty `sep`.  Go runs the loop
`Count(s, sep)` times; `len(s)` is an upper bound of that count, and the loop
stops by itself once no separator is left (`genSplit_fuel`). -/
def Split (s sep : Str) : List Str := genSplit s.length s sep

/-- Go `strings.Join(elems, sep)`. -/
def stringsJoin : List Str → Str → Str
  | [], _ => []
  | [e], _ => e
  | e :: es, sep => e ++ sep ++ stringsJoin es sep

/-! ## Packages `path` and `path/filepath` (Unix) -/

/-- The inner loop of the `..` case of `path.Clean`:
`for out.w > dotdot && out.index(out.w) != '/' { out.w-- }`,
as a function from the current `out.w` to the final one. -/
def backtrackLoop (buf : Str) (dotdot : Nat) : Nat → Nat
  | 0 => 0
  | w + 1 =>
    if w + 1 > dotdot ∧ buf[w + 1]? ≠ some '/' then backtrackLoop buf dotdot w else w + 1

/-- The `..` case of `path.Clean` when it can backtrack:
`out.w--` followed by the inner loop; the buffer keeps its first `out.w` bytes. -/
def backtrack (out : Str) (dotdot : Nat) : Str :=
  out.take (backtrackLoop out dotdot (out.length - 1))

/-- The main loop `for r < n` of Go `path.Clean`.  `path[r:]` is the third
argument, the `lazybuf` is the list of its first `out.w` bytes, and the first
argument bounds the number of iterations (each one consumes a byte). -/
def cleanLoop (rooted : Bool) : Nat → Str → Str → Nat → Str
  | 0, _, out, _ => out
  | _ + 1, [], out, _ => out
  | fuel + 1, c :: rest, out, dotdot =>
    if c = '/' then
      -- empty path element
      cleanLoop rooted fuel rest out dotdot
    else if c = '.' ∧ (rest = [] ∨ rest.head? = some '/') then
      -- . element
      cleanLoop rooted fuel rest out dotdot
    else if c = '.' ∧ rest.head? = some '.' ∧
        (rest.tail = [] ∨ rest.tail.head? = some '/') then
      -- .. element: remove to last /
      if out.length > dotdot then
        cleanLoop rooted fuel rest.tail (backtrack out dotdot) dotdot
      else if rooted = false then
        let out1 := if out.length > 0 then out ++ ['/'] else out
        let out2 := out1 ++ ['.', '.']
        cleanLoop rooted fuel rest.tail out2 out2.length
      else
        cleanLoop rooted fuel rest.tail out dotdot
    else
      -- real path element: add slash if needed, copy element
      let out1 :=
        if (rooted = true ∧ out.length ≠ 1) ∨ (rooted = false ∧ out.length ≠ 0)
        then out ++ ['/'] else out
      cleanLoop rooted fuel ((c :: rest).dropWhile (· ≠ '/'))
        (out1 ++ (c :: rest).takeWhile (· ≠ '/')) dotdot

/-- Go `path.Clean` (and `filepath.Clean` on Unix). -/
def Clean (path : Str) : Str :=
  match path with
  | [] => ['.']
  | c :: rest =>
    let rooted : Bool := c = '/'
    let out :=
      if rooted then cleanLoop rooted path.length rest ['/'] 1
      else cleanLoop rooted path.length path [] 0
    if out.length = 0 then ['.'] else out

/-- Go `filepath.FromSlash` on Unix: the separator is `/`, nothing changes. -/
def FromSlash (path : Str) : Str := path

/-- Go `filepath.Join` on Unix: leading empty elements are skipped, the rest is
joined with `/` and cleaned; the result is empty when every element is. -/
def Join (elem : List Str) : Str :=
  match elem.dropWhile (· = []) with
  | [] => []
  | es => Clean (stringsJoin es ['/'])

/-! ## `path.Clean`, element by element

A second description of `path.Clean`, by the elements of the path instead of
its bytes.  `Clean_eq_cleanElems` proves it equal to the transcription `Clean`;
the theorems about cleaned paths are proved through it. -/

/-- The elements of a path: the pieces between its slashes. -/
def elems : Str → List Str
  | [] => [[]]
  | c :: cs =>
    if c = '/' then [] :: elems cs
    else
      match elems cs with
      | [] => [[c]]
      | e :: es => (c :: e) :: es

/-- What `path.Clean` has written: `dots` leading `..` elements, then the names,
the last one first. -/
structure Cleaned where
  dots : Nat
  names : List Str

/-- One element read by `path.Clean`: an empty element or `.` is dropped, `..`
removes the last name, or is kept when there is none and the path is not
rooted, any other element is a name. -/
def Cleaned.step (rooted : Bool) (s : Cleaned) (e : Str) : Cleaned :=
  if e = [] ∨ e = ['.'] then s
  else if e = ['.', '.'] then
    match s.names with
    | _ :: ns => ⟨s.dots, ns⟩
    | [] => if rooted then s else ⟨s.dots + 1, []⟩
  else ⟨s.dots, e :: s.names⟩

/-- The bytes of a `Cleaned`: the leading slash of a rooted path, then the
elements separated by single slashes. -/
def Cleaned.render (rooted : Bool) (s : Cleaned) : Str :=
  (if rooted then ['/'] else []) ++
    stringsJoin (List.replicate s.dots ['.', '.'] ++ s.names.reverse) ['/']

/-- The elements of a path, read from an empty buffer. -/
def cleanedOf (rooted : Bool) (path : Str) : Cleaned :=
  (elems path).foldl (Cleaned.step rooted) ⟨0, []⟩

/-- The function `path.Clean`, by elements. -/
def cleanElems (path : Str) : Str :=
  match path with
  | [] => ['.']
  | c :: _ =>
    let rooted : Bool := c = '/'
    let out := (cleanedOf rooted path).render rooted
    if out.length = 0 then ['.'] else out

/-- A name, as `path.Clean` keeps one: not empty, not `.`, not `..`, without a slash. -/
def IsName (e : Str) : Prop := e ≠ [] ∧ e ≠ ['.'] ∧ e ≠ ['.', '.'] ∧ '/' ∉ e

instance (e : Str) : Decidable (IsName e) := by unfold IsName; infer_instance

/-- A rooted clean path: a slash, then names separated by single slashes. -/
def IsRootedClean (q : Str) : Prop :=
  ∃ names : List Str, (∀ e ∈ names, IsName e) ∧ q = '/' :: stringsJoin names ['/']

/-- The path `q` is the directory `D` or lies beneath it: `q` is `D`, or `D`,
a slash and more. -/
def Within (D q : Str) : Prop := q = D ∨ (D ++ ['/']) <+: q

instance (D q : Str) : Decidable (Within D q) := by unfold Within; infer_instance

/-! ## The repository: `src/lib/server.go` and `src/lib/mediafs.go` -/

/-! ### The string literals of the source -/

/-- The literal `"/"`. -/
def slash : Str := "/".toList

/-- The literal `"media"`, the directory of `newMediafs` and a key of `configTranslator`. -/
def mediaName : Str := "media".toList

/-- The literal `"blog"`, a key of `configTranslator`. -/
def blogName : Str := "blog".toList

/-- The literal `"/type"` of `newWebfs`. -/
def typeFile : Str := "/type".toList

/-- The literal `"\n"` of `newWebfs`. -/
def newline : Str := "\n".toList

/-- The literal `".."` of `NewMediafs`. -/
def dotdotName : Str := "..".toList

/-- The literal `"root"`, the one group of a listing. -/
def rootGroup : Str := "root".toList

/-- The literal `"File Browser"`, the title of a listing. -/
def fileBrowser : Str := "File Browser".toList

/-- The message `"File not found"`, by which `ServeHTTP` recognises a missing file. -/
def fileNotFound : Str := "File not found".toList

/-- The message `"Template not found"`. -/
def templateNotFound : Str := "Template not found".toList

/-- The message `"Error processing template"`. -/
def templateFailed : Str := "Error processing template".toList

/-- The message `"Internal server error"`, the body of the answer 500. -/
def internalServerError : Str := "Internal server error".toList

/-- The message of `newWebfs` for a type file it cannot read. -/
def typeFileNotFound (err : Str) : Str := "type file not found: ".toList ++ err

/-- The message of `newWebfs` for a type `configTranslator` does not hold. -/
def typeNotDefined (conf : Str) : Str := "Type ".toList ++ conf ++ " is not defined".toList

/-- The message of `Parse` around the error of `newWebfs`. -/
def issueCreating (path err : Str) : Str :=
  "Issue creating webfs at ".toList ++ path ++ " : ".toList ++ err

/-- The literal `"www."` of `ServeHTTP`. -/
def www : Str := "www.".toList

/-- The constant `domainDir`. -/
def domainDir : Str := "./domains/".toList

/-- The constant `dirTemplName`. -/
def dirTemplName : Str := "dir.tmpl".toList

/-- The constant `defaultDirTempl = domainDir + dirTemplName`. -/
def defaultDirTempl : Str := domainDir ++ dirTemplName

/-- An `io.ReadSeeker` as the code produces one: an opened file (`os.Open`), or
`strings.NewReader` over a string. -/
inductive ReadSeeker where
  | file (path : Str)
  | reader (s : Str)
  deriving DecidableEq, Repr

/-- Modelled from the spec: the `page` record (not under `src/`), the template's
page model `Title`, `Link` and `Sidebar`, a mapping from a group name to an
ordered list of entries.  The Go map is an association list with unique keys. -/
structure page where
  Title : Str
  Link : Str
  Sidebar : List (Str × List page)

/-- Modelled from the spec: `newPage(title, link)` (not under `src/`) makes the
entry with that display name and that link, and no sidebar. -/
def newPage (title link : Str) : page := ⟨title, link, []⟩

/-- Reading a Go `map[string][]page`: the zero value (a nil slice) for a key
the map does not hold. -/
def mapGet : List (Str × List page) → Str → List page
  | [], _ => []
  | (k, v) :: m, key => if k = key then v else mapGet m key

/-- Writing a Go `map[string][]page`: replace the key's value, or add the key. -/
def mapSet : List (Str × List page) → Str → List page → List (Str × List page)
  | [], key, val => [(key, val)]
  | (k, v) :: m, key, val => if k = key then (k, val) :: m else (k, v) :: mapSet m key val

/-- What the code calls outside `src/`, over a world `W` (the filesystem) and a
type `B` of blog backends.
* `stat`: `os.Stat`, `none` on error, else `IsDir ()`;
* `readFile`: `ioutil.ReadFile`; `openFile`: `os.Open` (`error` with the message);
* `mkdir`: `os.Mkdir`, whose result the code drops;
* `readDir` (package `simpleblog`) and `basicfsList` (`basicfs.List`): the
  file names and the directory names of a directory, in enumeration order;
* `parseFiles`: `template.ParseFiles`, `none` on error, else the template as
  its `Execute`, itself `none` on error and else the bytes written;
* `newBfs`, `bfsRead`: the blog backend, constructor and `Read`. -/
structure Sys (W B : Type) where
  stat : W → Str → Option Bool
  readFile : W → Str → Except Str Str
  openFile : W → Str → Except Str Unit
  mkdir : W → Str → W
  readDir : W → Str → Except Str (List Str × List Str)
  basicfsList : W → Str → Except Str (List Str × List Str)
  parseFiles : W → Str → Option (page → Option Str)
  newBfs : W → Str → B × W
  bfsRead : W → B → Str → Except Str ReadSeeker

/-- The struct `mediafs` of `src/lib/mediafs.go`. -/
structure mediafs where
  root : Str
  deriving DecidableEq, Repr

/-- The interface `webfs`, as the backends `configTranslator` can build: a
`*mediafs`, or a blog backend. -/
inductive webfs (B : Type) where
  | media (mfs : mediafs)
  | blog (bfs : B)

/-- The type `sectionMux map[string]webfs`; `none` is the nil a missing key
reads as. -/
abbrev sectionMux (B : Type) := Str → Option (webfs B)

/-- The statement `sm[path] = newfs`. -/
def sectionMux.set {B : Type} (sm : sectionMux B) (key : Str) (fs : webfs B) : sectionMux B :=
  fun k => if k = key then some fs else sm k

/-- The map `make(sectionMux)` of `Serve`. -/
def sectionMux.empty (B : Type) : sectionMux B := fun _ => none

section Backend

variable {W B : Type} (sys : Sys W B)

/-- The path `mediafs.Read` stats and opens: `filepath.Join(mfs.root, request)`. -/
def mediafs.readPath (mfs : mediafs) (request : Str) : Str := Join [mfs.root, request]

/-- The page model `mediafs.openDir` builds from the enumeration (lines 49-60 of
`src/lib/mediafs.go`): a page "File Browser" whose sidebar maps "root" to one
entry per file, then one per directory. -/
def mediafs.dirPage (path : Str) (files dirs : List Str) : page :=
  let p := newPage fileBrowser slash
  let directory : List (Str × List page) := mapSet [] rootGroup []
  let directory := files.foldl
    (fun directory f =>
      mapSet directory rootGroup
        (mapGet directory rootGroup ++ [newPage f (Join [path, f])]))
    directory
  let directory := dirs.foldl
    (fun directory d =>
      mapSet directory rootGroup
        (mapGet directory rootGroup ++ [newPage d (Join [path, d])]))
    directory
  { p with Sidebar := directory }

/-- The method `mediafs.openDir` of `src/lib/mediafs.go`. -/
def mediafs.openDir (mfs : mediafs) (w : W) (path : Str) : Except Str ReadSeeker :=
  match sys.readDir w (mfs.root ++ path) with
  | .error err => .error err
  | .ok (files, dirs) =>
    let p := mediafs.dirPage path files dirs
    match sys.parseFiles w defaultDirTempl with
    | none => .error templateNotFound
    | some t =>
      match t p with
      | none => .error templateFailed
      | some out => .ok (.reader out)

/-- The method `mediafs.Read` of `src/lib/mediafs.go`. -/
def mediafs.Read (mfs : mediafs) (w : W) (request : Str) : Except Str ReadSeeker :=
  let path := mfs.readPath request
  match sys.stat w path with
  | some isDir =>
    let opened : Option ReadSeeker :=
      if isDir = false then
        match sys.openFile w path with
        | .ok _ => some (.file path)
        | .error _ => none
      else none
    match opened with
    | some fd => .ok fd
    | none =>
      match mfs.openDir sys w request with
      | .error err => .ok (.reader err)
      | .ok out => .ok out
  | none => .error fileNotFound

/-- The constructor `newMediafs`: the backend rooted at `<root>/media`, which it
creates (`os.Mkdir`, result dropped). -/
def newMediafs (w : W) (root : Str) : webfs B × W :=
  let contentDir := Join [root, mediaName]
  (.media ⟨contentDir⟩, sys.mkdir w contentDir)

/-- The method `Read` of the interface `webfs`. -/
def webfs.Read (fs : webfs B) (w : W) (requestFile : Str) : Except Str ReadSeeker :=
  match fs with
  | .media mfs => mfs.Read sys w requestFile
  | .blog bfs => sys.bfsRead w bfs requestFile

/-- The table `configTranslator`: "blog" to `newBfs`, "media" to `newMediafs`;
`none` is the nil constructor of a missing key. -/
def configTranslator (conf : Str) : Option (W → Str → webfs B × W) :=
  if conf = blogName then
    some (fun w root => ((sys.newBfs w root).1 |> webfs.blog, (sys.newBfs w root).2))
  else if conf = mediaName then some (newMediafs sys)
  else none

/-- The domain root `newWebfs` works on: `filepath.Join(domainDir, path)`.  The
call `filepath.Clean(path)` before it drops its result. -/
def domainRoot (path : Str) : Str := Join [domainDir, path]

/-- The function `newWebfs`: the backend or the error, and the world afterwards. -/
def newWebfs (w : W) (path : Str) : Except Str (webfs B) × W :=
  let path := domainRoot path
  match sys.stat w path with
  | none => (.error fileNotFound, w)
  | some _ =>
    match sys.readFile w (Join [path, typeFile]) with
    | .error err => (.error (typeFileNotFound err), w)
    | .ok read =>
      let conf := TrimSuffix read newline
      match configTranslator sys conf with
      | none => (.error (typeNotDefined conf), w)
      | some constructor =>
        let r := constructor w path
        (.ok r.1, r.2)

/-- The method `sectionMux.Parse`: the result, the registry and the world afterwards. -/
def sectionMux.Parse (sm : sectionMux B) (w : W) (path : Str) :
    Except Str (webfs B) × sectionMux B × W :=
  match newWebfs sys w path with
  | (.error err, w1) =>
    (.error (issueCreating path err), sm, w1)
  | (.ok newfs, w1) => (.ok newfs, sm.set path newfs, w1)

/-- The method `sectionMux.Lookup`: the backend (`none` for nil), the registry
and the world afterwards. -/
def sectionMux.Lookup (sm : sectionMux B) (w : W) (host : Str) :
    Option (webfs B) × sectionMux B × W :=
  match sm host with
  | some fs => (some fs, sm, w)
  | none =>
    match sectionMux.Parse sys sm w host with
    | (.ok fs, sm1, w1) => (some fs, sm1, w1)
    | (.error _, sm1, w1) => (none, sm1, w1)

/-- What `ServeHTTP` reads of the `*http.Request`: `r.Host` and `r.URL.Path`. -/
structure Request where
  Host : Str
  Path : Str

/-- What `ServeHTTP` does with the `http.ResponseWriter`, by the call it makes:
`http.NotFoundHandler ()`, `http.Error(w, body, code)` or `http.ServeContent`
with a name and a stream. -/
inductive Response where
  | notFound
  | error (body : Str) (code : Nat)
  | content (name : Str) (stream : ReadSeeker)
  deriving DecidableEq, Repr

/-- Lines 59-69 of `ServeHTTP`: the registry key of a `Host` value.  `none` is the
panic of indexing `strings.Split(...)` out of range. -/
def hostKey (host : Str) : Option Str :=
  let addr := host
  let addr? : Option Str :=
    if Contains addr [':'] then (Split addr [':'])[0]? else some addr
  match addr? with
  | none => none
  | some addr =>
    let addr? : Option Str :=
      if HasPrefix addr www then (Split addr www)[1]? else some addr
    match addr? with
    | none => none
    | some addr => some (addr ++ ['/'])

/-- Line 71 of `ServeHTTP`: the path handed to `Read`,
`filepath.Join("/", filepath.FromSlash(path.Clean("/"+requestedFile)))`. -/
def requestedFile (urlPath : Str) : Str :=
  Join [slash, FromSlash (Clean (slash ++ urlPath))]

/-- Lines 72-83 of `ServeHTTP`: the answer to what `Read` returned. -/
def respond (requestedFile : Str) (r : Except Str ReadSeeker) : Response :=
  match r with
  | .error err =>
    if err = fileNotFound then .notFound
    else .error internalServerError 500
  | .ok content => .content requestedFile content

/-- The method `sectionMux.ServeHTTP`: the response, the registry and the world
afterwards; `none` when indexing a split panics (it never does:
`ServeHTTP_isSome`).  The lines it prints to the log are left out. -/
def sectionMux.ServeHTTP (sm : sectionMux B) (w : W) (r : Request) :
    Option (Response × sectionMux B × W) :=
  match hostKey r.Host with
  | none => none
  | some key =>
    match sectionMux.Lookup sys sm w key with
    | (some fs, sm1, w1) =>
      let requestedFile := requestedFile r.Path
      some (respond requestedFile (fs.Read sys w1 requestedFile), sm1, w1)
    | (none, sm1, w1) => some (.notFound, sm1, w1)

end Backend

/-! ## The package `src/pkg/mediafs` -/

namespace Pkg

/-- The struct `mediafs` of `src/pkg/mediafs/mediafs.go`. -/
structure mediafs where
  root : Str
  templ : Str
  deriving DecidableEq, Repr

variable {W B : Type} (sys : Sys W B)

/-- The constructor `NewMediafs`. -/
def NewMediafs (w : W) (root : Str) : mediafs × W :=
  let contentDir := Join [root, mediaName]
  let templ := Join [root, dirTemplName]
  let templ := if (sys.stat w templ).isSome then templ else Join [root, dotdotName, dirTemplName]
  (⟨contentDir, templ⟩, sys.mkdir w contentDir)

/-- The path `Read` and `Stat` work on: `filepath.Join(mfs.root, request)`. -/
def mediafs.readPath (mfs : mediafs) (request : Str) : Str := Join [mfs.root, request]

/-- The page model of `openDir` (lines 64-71): `files = append(files, dirs...)`,
then one entry per name under "root". -/
def mediafs.dirPage (path : Str) (files dirs : List Str) : page :=
  let files := files ++ dirs
  let p := newPage fileBrowser slash
  let sidebar : List (Str × List page) := mapSet [] rootGroup []
  let sidebar := files.foldl
    (fun sidebar f =>
      mapSet sidebar rootGroup
        (mapGet sidebar rootGroup ++ [newPage f (Join [path, f])]))
    sidebar
  { p with Sidebar := sidebar }

/-- The method `openDir` of `src/pkg/mediafs/mediafs.go`. -/
def mediafs.openDir (mfs : mediafs) (w : W) (path : Str) : Except Str ReadSeeker :=
  match sys.basicfsList w (Join [mfs.root, path]) with
  | .error err => .error err
  | .ok (files, dirs) =>
    let p := mediafs.dirPage path files dirs
    match sys.parseFiles w mfs.templ with
    | none => .error templateNotFound
    | some t =>
      match t p with
      | none => .error templateFailed
      | some out => .ok (.reader out)

/-- The method `Read` of `src/pkg/mediafs/mediafs.go`; `statError` is the message
of the error `os.Stat` returned. -/
def mediafs.Read (statError : Str) (mfs : mediafs) (w : W) (request : Str) :
    Except Str ReadSeeker :=
  let path := mfs.readPath request
  match sys.stat w path with
  | none => .error statError
  | some isDir =>
    if isDir = false then
      match sys.openFile w path with
      | .error err => .error err
      | .ok _ => .ok (.file path)
    else
      match mfs.openDir sys w request with
      | .error err => .error err
      | .ok out => .ok out

end Pkg

/-! ## A concrete world, for instances of the theorems -/

/-- A small filesystem: the directories with their file names and directory
names, and the files with their content.  Paths are resolved lexically. -/
structure DemoWorld where
  dirs : List (Str × List Str × List Str)
  files : List (Str × Str)

/-- The directory at a path, if there is one. -/
def DemoWorld.dir (w : DemoWorld) (p : Str) : Option (List Str × List Str) :=
  w.dirs.lookup (Clean p)

/-- The content of the file at a path, if there is one. -/
def DemoWorld.content (w : DemoWorld) (p : Str) : Option Str :=
  w.files.lookup (Clean p)

/-- The message of a failed system call in the concrete world. -/
def enoent : Str := "no such file or directory".toList

/-- The calls of `Sys` on a `DemoWorld`.  A template renders its own text
followed by the links of the "root" group; the blog backend always fails. -/
def demoSys : Sys DemoWorld Unit where
  stat w p :=
    if (w.dir p).isSome then some true
    else if (w.content p).isSome then some false else none
  readFile w p := match w.content p with
    | some c => .ok c
    | none => .error enoent
  openFile w p := match w.content p with
    | some _ => .ok ()
    | none => .error enoent
  mkdir w p := if (w.dir p).isSome then w else { w with dirs := w.dirs ++ [(Clean p, [], [])] }
  readDir w p := match w.dir p with
    | some l => .ok l
    | none => .error enoent
  basicfsList w p := match w.dir p with
    | some l => .ok l
    | none => .error enoent
  parseFiles w p := (w.content p).map
    (fun body pg => some (body ++ ((mapGet pg.Sidebar rootGroup).map (·.Link)).flatten))
  newBfs w _ := ((), w)
  bfsRead _ _ _ := .error "blog backend failure".toList

/-- A world with one domain `x` of type "media", without a listing template. -/
def worldMedia : DemoWorld where
  dirs := [("domains/x".toList, ["type".toList], [mediaName]),
           ("domains/x/media".toList, ["a.txt".toList], [])]
  files := [("domains/x/type".toList, "media\n".toList),
            ("domains/x/media/a.txt".toList, "hello".toList)]

/-- The same domain after its type file was changed to an unregistered type. -/
def worldBogus : DemoWorld where
  dirs := worldMedia.dirs
  files := [("domains/x/type".toList, "bogus\n".toList),
            ("domains/x/media/a.txt".toList, "hello".toList)]

/-- A world with a domain `b` of type "blog". -/
def worldBlog : DemoWorld where
  dirs := [("domains/b".toList, ["type".toList], [])]
  files := [("domains/b/type".toList, blogName)]

/-- A world without any domain. -/
def worldEmpty : DemoWorld where
  dirs := []
  files := []

/-- The request for `/a.txt` on host `x`. -/
def requestX : Request := ⟨"x".toList, "/a.txt".toList⟩

/-- The registry after `requestX` was served, from the empty registry, in `worldMedia`. -/
def muxAfterMedia : sectionMux Unit :=
  match sectionMux.ServeHTTP demoSys (sectionMux.empty Unit) worldMedia requestX with
  | some (_, sm, _) => sm
  | none => sectionMux.empty Unit

/-- The world `worldMedia` with a file `domains/secret` next to the domains. -/
def worldSecret : DemoWorld where
  dirs := worldMedia.dirs
  files := worldMedia.files ++ [("domains/secret".toList, "secret".toList)]

/-- A world whose working directory holds a file `type` saying "media". -/
def worldCwd : DemoWorld where
  dirs := [(".".toList, ["type".toList], ["domains".toList])]
  files := [("type".toList, "media\n".toList)]

/-- A world with the listing template `domains/dir.tmpl` and a directory
`docs` of the domain `x` holding the files `a.txt`, `b.txt` and the directory `sub`. -/
def worldListing : DemoWorld where
  dirs := [("domains/x/media/docs".toList, ["a.txt".toList, "b.txt".toList], ["sub".toList])]
  files := [("domains/dir.tmpl".toList, "Index:".toList),
            ("domains/x/dir.tmpl".toList, "Index:".toList)]

/-- A request on host `x` whose path has `..`, `.` and empty elements. -/
def requestDots : Request := ⟨"x".toList, "/../x/./..//a.txt".toList⟩

/-! ## Facts about package `strings` -/

theorem HasPrefix_append (pre t : Str) : HasPrefix (pre ++ t) pre = true := by
  simp [HasPrefix]

theorem HasPrefix_nil_sep {sep : Str} (h : sep ≠ []) : HasPrefix [] sep = false := by
  cases sep with
  | nil => exact absurd rfl h
  | cons a l => simp [HasPrefix]

theorem Index_of_HasPrefix {s sep : Str} (h : HasPrefix s sep = true) : Index s sep = some 0 := by
  cases s <;> simp [Index, h]

theorem HasPrefix_of_not_Contains {s sep : Str} (h : Contains s sep = false) :
    HasPrefix s sep = false := by
  by_contra hp
  have hp1 : HasPrefix s sep = true := by simpa using hp
  simp [Contains, Index_of_HasPrefix hp1] at h

theorem HasPrefix_single (a c : Char) (cs : Str) : HasPrefix (a :: cs) [c] = decide (a = c) := by
  by_cases h : a = c <;> simp [HasPrefix, h]

theorem Index_single_of_not_mem (c : Char) : ∀ s : Str, c ∉ s → Index s [c] = none
  | [], _ => by simp [Index, HasPrefix]
  | a :: cs, h => by
    have h1 : a ≠ c := fun e => h (by simp [e])
    have h2 : c ∉ cs := fun e => h (by simp [e])
    simp [Index, HasPrefix_single, h1, Index_single_of_not_mem c cs h2]

theorem Index_single_append (c : Char) (r : Str) :
    ∀ s : Str, c ∉ s → Index (s ++ c :: r) [c] = some s.length
  | [], _ => by simp [Index, HasPrefix_single]
  | a :: cs, h => by
    have h1 : a ≠ c := fun e => h (by simp [e])
    have h2 : c ∉ cs := fun e => h (by simp [e])
    simp [Index, HasPrefix_single, h1, Index_single_append c r cs h2]

theorem Index_lt_length {sep : Str} (hsep : sep ≠ []) :
    ∀ (s : Str) (m : Nat), Index s sep = some m → m + sep.length ≤ s.length
  | [], m, h => by simp [Index, HasPrefix_nil_sep hsep] at h
  | a :: cs, m, h => by
    simp only [Index] at h
    split at h
    · rename_i hp
      simp only [HasPrefix, Bool.and_eq_true, decide_eq_true_eq] at hp
      cases h
      simpa using hp.1
    · cases hi : Index cs sep with
      | none => simp [hi] at h
      | some k =>
        simp [hi] at h
        have := Index_lt_length hsep cs k hi
        simp only [List.length_cons]
        omega

/-- Fuel: once the bound reaches `len(s)` the split no longer depends on it, so
the loop of `genSplit` always ends on `Index` finding no further separator. -/
theorem genSplit_fuel {sep : Str} (hsep : sep ≠ []) :
    ∀ (n m : Nat) (s : Str), s.length ≤ n → s.length ≤ m → genSplit n s sep = genSplit m s sep
  | 0, 0, _, _, _ => rfl
  | 0, m + 1, s, h0, _ => by
    have hs : s = [] := List.length_eq_zero.mp (Nat.le_zero.mp h0)
    subst hs
    simp [genSplit, Index, HasPrefix_nil_sep hsep]
  | n + 1, 0, s, _, h0 => by
    have hs : s = [] := List.length_eq_zero.mp (Nat.le_zero.mp h0)
    subst hs
    simp [genSplit, Index, HasPrefix_nil_sep hsep]
  | n + 1, m + 1, s, hn, hm => by
    simp only [genSplit]
    cases hi : Index s sep with
    | none => rfl
    | some k =>
      have hk := Index_lt_length hsep s k hi
      have hpos : 0 < sep.length := List.length_pos.mpr hsep
      have hd : (s.drop (k + sep.length)).length ≤ s.length - 1 := by
        simp only [List.length_drop]; omega
      simp only
      rw [genSplit_fuel hsep n m (s.drop (k + sep.length)) (by omega) (by omega)]

theorem www_length : www.length = 4 := rfl

theorem Contains_colon_of_not_mem {s : Str} (h : ':' ∉ s) : Contains s [':'] = false := by
  simp [Contains, Index_single_of_not_mem ':' s h]

theorem hostKey_of_plain {H : Str} (hc : ':' ∉ H) (hw : Contains H www = false) :
    hostKey H = some (H ++ ['/']) := by
  simp [hostKey, Contains_colon_of_not_mem hc, HasPrefix_of_not_Contains hw]

theorem Split_colon_head (H r : Str) (hc : ':' ∉ H) :
    (Split (H ++ ':' :: r) [':'])[0]? = some H := by
  have hlen : (H ++ ':' :: r).length = (H.length + r.length) + 1 := by simp; omega
  simp [Split, hlen, genSplit, Index_single_append ':' r H hc]

theorem hostKey_port (H r : Str) (hc : ':' ∉ H) : hostKey (H ++ ':' :: r) = hostKey H := by
  have h1 : Contains (H ++ ':' :: r) [':'] = true := by
    simp [Contains, Index_single_append ':' r H hc]
  simp only [hostKey, h1, Contains_colon_of_not_mem hc, Split_colon_head H r hc, if_true]
  simp

theorem Split_www_second (H : Str) (hw : Contains H www = false) :
    (Split (www ++ H) www)[1]? = some H := by
  have hi : Index H www = none := by
    simpa [Contains] using hw
  have hlen : (www ++ H).length = (H.length + 3) + 1 := by
    simp only [List.length_append, www_length]; omega
  have h0 : Index (www ++ H) www = some 0 :=
    Index_of_HasPrefix (HasPrefix_append _ _)
  have hd : List.drop (0 + www.length) (www ++ H) = H := by simp
  simp only [Split, hlen, genSplit, h0, hd, hi]
  simp

theorem hostKey_www {H : Str} (hc : ':' ∉ H) (hw : Contains H www = false) :
    hostKey (www ++ H) = some (H ++ ['/']) := by
  have hc2 : ':' ∉ www ++ H := by
    simp [hc, www]
  have hp : HasPrefix (www ++ H) www = true := HasPrefix_append www H
  simp [hostKey, Contains_colon_of_not_mem hc2, hp, Split_www_second H hw]

theorem genSplit_cons (n : Nat) (s sep : Str) : ∃ h t, genSplit n s sep = h :: t := by
  cases n with
  | zero => exact ⟨s, [], rfl⟩
  | succ n =>
    cases hi : Index s sep with
    | none => exact ⟨s, [], by simp [genSplit, hi]⟩
    | some m =>
      exact ⟨s.take m, genSplit n (s.drop (m + sep.length)) sep, by simp only [genSplit, hi]⟩

/-- Neither index into a split in `ServeHTTP` is out of range: every Host value
has a registry key. -/
theorem hostKey_isSome (host : Str) : (hostKey host).isSome = true := by
  have h0 : ∀ a : Str, ∃ x, (Split a [':'])[0]? = some x := by
    intro a
    obtain ⟨h, t, ht⟩ := genSplit_cons a.length a [':']
    exact ⟨h, by simp [Split, ht]⟩
  have h1 : ∀ a : Str, HasPrefix a www = true → ∃ x, (Split a www)[1]? = some x := by
    intro a ha
    have hlen : www.length ≤ a.length := by
      simp only [HasPrefix, Bool.and_eq_true, decide_eq_true_eq] at ha
      exact ha.1
    rw [www_length] at hlen
    obtain ⟨n, hn⟩ : ∃ n, a.length = n + 1 := ⟨a.length - 1, by omega⟩
    obtain ⟨h, t, ht⟩ := genSplit_cons n (a.drop (0 + www.length)) www
    exact ⟨h, by simp only [Split, hn, genSplit, Index_of_HasPrefix ha, ht]; simp⟩
  have h2 : ∀ a : Str, ∃ x,
      (if HasPrefix a www then (Split a www)[1]? else some a) = some x := by
    intro a
    by_cases ha : HasPrefix a www = true
    · obtain ⟨x, hx⟩ := h1 a ha
      exact ⟨x, by rw [if_pos ha, hx]⟩
    · exact ⟨a, by rw [if_neg ha]⟩
  unfold hostKey
  simp only
  by_cases hc : Contains host [':'] = true
  · obtain ⟨x, hx⟩ := h0 host
    obtain ⟨y, hy⟩ := h2 x
    simp only [if_pos hc, hx, hy, Option.isSome_some]
  · obtain ⟨y, hy⟩ := h2 host
    simp only [if_neg hc, hy, Option.isSome_some]

/-! ## `Clean` is `cleanElems` -/

theorem stringsJoin_cons_cons (a b : Str) (l : List Str) (sep : Str) :
    stringsJoin (a :: b :: l) sep = a ++ sep ++ stringsJoin (b :: l) sep := rfl

theorem stringsJoin_concat (sep e : Str) :
    ∀ l : List Str, stringsJoin (l ++ [e]) sep = if l = [] then e else stringsJoin l sep ++ sep ++ e
  | [] => rfl
  | [a] => by simp [stringsJoin]
  | a :: b :: l => by
    have ih := stringsJoin_concat sep e (b :: l)
    simp only [List.cons_append, stringsJoin_cons_cons] at ih ⊢
    rw [ih]
    simp

theorem render_push (rooted : Bool) (k : Nat) (e : Str) (names : List Str) :
    Cleaned.render rooted ⟨k, e :: names⟩ =
      Cleaned.render rooted ⟨k, names⟩ ++ (if k = 0 ∧ names = [] then [] else ['/']) ++ e := by
  simp only [Cleaned.render, List.reverse_cons, ← List.append_assoc, stringsJoin_concat]
  by_cases h : k = 0 ∧ names = []
  · obtain ⟨h1, h2⟩ := h
    subst h1 h2
    simp [stringsJoin]
  · have h1 : ¬ (List.replicate k ['.', '.'] ++ names.reverse = []) := by
      intro hh
      simp only [List.append_eq_nil, List.reverse_eq_nil_iff] at hh
      apply h
      refine ⟨?_, hh.2⟩
      have := congrArg List.length hh.1
      simpa using this
    simp [h1, h]

theorem render_dots_succ (k : Nat) :
    Cleaned.render false ⟨k + 1, []⟩ =
      Cleaned.render false ⟨k, []⟩ ++ (if k = 0 then [] else ['/']) ++ ['.', '.'] := by
  simp only [Cleaned.render, List.reverse_nil, List.append_nil, List.replicate_succ',
    stringsJoin_concat]
  by_cases h : k = 0
  · subst h; simp [stringsJoin]
  · have h1 : ¬ (List.replicate k ['.', '.'] = []) := by
      intro hh
      have := congrArg List.length hh
      simp at this
      exact h this
    simp [h1, h]

theorem render_nil_rooted : Cleaned.render true ⟨0, []⟩ = ['/'] := rfl

theorem render_nil_unrooted : Cleaned.render false ⟨0, []⟩ = [] := rfl

theorem render_length_push (rooted : Bool) (k : Nat) (e : Str) (names : List Str) (he : e ≠ []) :
    (Cleaned.render rooted ⟨k, names⟩).length < (Cleaned.render rooted ⟨k, e :: names⟩).length := by
  rw [render_push]
  have : 0 < e.length := List.length_pos.mpr he
  simp only [List.length_append]
  omega

theorem render_length_ge (rooted : Bool) (k : Nat) :
    ∀ names : List Str, (∀ e ∈ names, e ≠ []) →
      (Cleaned.render rooted ⟨k, []⟩).length ≤ (Cleaned.render rooted ⟨k, names⟩).length
  | [], _ => le_refl _
  | e :: names, h => by
    have h1 := render_length_ge rooted k names (fun x hx => h x (by simp [hx]))
    have h2 := render_length_push rooted k e names (h e (by simp))
    omega

theorem render_dots_pos (k : Nat) (hk : k ≠ 0) :
    0 < (Cleaned.render false ⟨k, []⟩).length := by
  obtain ⟨j, rfl⟩ := Nat.exists_eq_succ_of_ne_zero hk
  rw [render_dots_succ]
  simp

/-- The loop of the `..` case, on a buffer `base ++ "/" ++ n`: it stops at the
slash before the last name. -/
theorem backtrackLoop_slash (base n : Str) (dotdot : Nat) (hn : '/' ∉ n)
    (hd : dotdot ≤ base.length) :
    ∀ j, j ≤ n.length → backtrackLoop (base ++ '/' :: n) dotdot (base.length + j) = base.length
  | 0, _ => by
    cases hb : base.length with
    | zero => simp [backtrackLoop]
    | succ w =>
      have : (base ++ '/' :: n)[w + 1]? = some '/' := by
        rw [← hb, List.getElem?_append_right (le_refl _)]; simp
      simp [backtrackLoop, this]
  | j + 1, hj => by
    have ih := backtrackLoop_slash base n dotdot hn hd j (by omega)
    have hlt : j < n.length := by omega
    have hget : (base ++ '/' :: n)[base.length + j + 1]? = some n[j] := by
      rw [List.getElem?_append_right (by omega)]
      have : base.length + j + 1 - base.length = j + 1 := by omega
      rw [this]
      simp [List.getElem?_eq_getElem hlt]
    have hne : n[j] ≠ '/' := fun h => hn (h ▸ List.getElem_mem _)
    have : base.length + (j + 1) = (base.length + j) + 1 := by omega
    rw [this, backtrackLoop]
    simp only [hget]
    rw [if_pos ⟨by omega, by simpa using hne⟩]
    exact ih

theorem backtrack_slash (base n : Str) (dotdot : Nat) (hn : '/' ∉ n)
    (hd : dotdot ≤ base.length) : backtrack (base ++ '/' :: n) dotdot = base := by
  have h := backtrackLoop_slash base n dotdot hn hd n.length (le_refl _)
  have hl : (base ++ '/' :: n).length - 1 = base.length + n.length := by simp
  rw [backtrack, hl, h]
  simp

/-- The loop of the `..` case, on a buffer `base ++ n` whose `base` ends at
`dotdot`: it stops at `dotdot`. -/
theorem backtrackLoop_base (base n : Str) (hn : '/' ∉ n) :
    ∀ j, j < n.length → backtrackLoop (base ++ n) base.length (base.length + j) = base.length
  | 0, _ => by
    cases hb : base.length with
    | zero => simp [backtrackLoop]
    | succ w => simp [backtrackLoop]
  | j + 1, hj => by
    have ih := backtrackLoop_base base n hn j (by omega)
    have hget : (base ++ n)[base.length + j + 1]? = some n[j + 1] := by
      rw [List.getElem?_append_right (by omega)]
      have : base.length + j + 1 - base.length = j + 1 := by omega
      rw [this]
      simp [List.getElem?_eq_getElem hj]
    have hne : n[j + 1] ≠ '/' := fun h => hn (h ▸ List.getElem_mem _)
    have : base.length + (j + 1) = (base.length + j) + 1 := by omega
    rw [this, backtrackLoop]
    simp only [hget]
    rw [if_pos ⟨by omega, by simpa using hne⟩]
    exact ih

theorem backtrack_base (base n : Str) (hn : '/' ∉ n) (hne : n ≠ []) :
    backtrack (base ++ n) base.length = base := by
  have hpos : 0 < n.length := List.length_pos.mpr hne
  have h := backtrackLoop_base base n hn (n.length - 1) (by omega)
  have hl : (base ++ n).length - 1 = base.length + (n.length - 1) := by
    simp only [List.length_append]; omega
  rw [backtrack, hl, h]
  simp

/-! ### The elements of a path -/

theorem dropWhile_head_slash :
    ∀ (p : Str) (d : Char) (r : Str), p.dropWhile (· ≠ '/') = d :: r → d = '/'
  | [], _, _, h => by simp at h
  | c :: cs, d, r, h => by
    by_cases hc : c = '/'
    · subst hc
      simp at h
      exact h.1.symm
    · rw [List.dropWhile_cons_of_pos (by simpa using hc)] at h
      exact dropWhile_head_slash cs d r h

theorem elems_eq :
    ∀ p : Str, elems p = p.takeWhile (· ≠ '/') ::
      (match p.dropWhile (· ≠ '/') with
       | [] => []
       | _ :: r => elems r)
  | [] => rfl
  | c :: cs => by
    by_cases hc : c = '/'
    · subst hc
      simp [elems]
    · have ih := elems_eq cs
      rw [List.takeWhile_cons_of_pos (by simpa using hc),
        List.dropWhile_cons_of_pos (by simpa using hc)]
      simp only [elems, if_neg hc]
      rw [ih]

theorem step_nil (rooted : Bool) (s : Cleaned) : Cleaned.step rooted s [] = s := by
  simp [Cleaned.step]

theorem step_dot (rooted : Bool) (s : Cleaned) : Cleaned.step rooted s ['.'] = s := by
  simp [Cleaned.step]

theorem step_name (rooted : Bool) (s : Cleaned) (e : Str) (h : IsName e) :
    Cleaned.step rooted s e = ⟨s.dots, e :: s.names⟩ := by
  obtain ⟨h1, h2, h3, _⟩ := h
  simp [Cleaned.step, h1, h2, h3]

/-- Reading a path is reading its first element, then the path behind it. -/
theorem foldl_elems (rooted : Bool) (s : Cleaned) (p : Str) :
    (elems p).foldl (Cleaned.step rooted) s =
      (elems (p.dropWhile (· ≠ '/'))).foldl (Cleaned.step rooted)
        (Cleaned.step rooted s (p.takeWhile (· ≠ '/'))) := by
  rw [elems_eq p]
  cases hd : p.dropWhile (· ≠ '/') with
  | nil => simp [elems, step_nil]
  | cons d r =>
    have := dropWhile_head_slash p d r hd
    subst this
    simp [elems, step_nil]

theorem foldl_elems_slash (rooted : Bool) (s : Cleaned) (p : Str) :
    (elems ('/' :: p)).foldl (Cleaned.step rooted) s = (elems p).foldl (Cleaned.step rooted) s := by
  simp [elems, step_nil]

theorem takeWhile_eq_nil_iff (l : Str) :
    l.takeWhile (· ≠ '/') = [] ↔ l = [] ∨ l.head? = some '/' := by
  cases l with
  | nil => simp
  | cons a l =>
    by_cases h : a = '/'
    · simp [h]
    · simp [List.takeWhile_cons_of_pos, h]

theorem not_mem_takeWhile (l : Str) : '/' ∉ l.takeWhile (· ≠ '/') := by
  intro h
  have := List.mem_takeWhile_imp h
  simp at this

theorem dropWhile_eq_self (l : Str) (h : l = [] ∨ l.head? = some '/') :
    l.dropWhile (· ≠ '/') = l := by
  cases l with
  | nil => rfl
  | cons a l =>
    have : a = '/' := by simpa using h
    subst this
    simp

/-- Whether `path.Clean` writes a slash before a name: not at the start of the buffer. -/
theorem sep_needed_iff (rooted : Bool) (k : Nat) (names : List Str)
    (hnames : ∀ e ∈ names, IsName e) (hroot : rooted = true → k = 0) :
    ((rooted = true ∧ (Cleaned.render rooted ⟨k, names⟩).length ≠ 1) ∨
      (rooted = false ∧ (Cleaned.render rooted ⟨k, names⟩).length ≠ 0))
      ↔ ¬ (k = 0 ∧ names = []) := by
  cases names with
  | nil =>
    cases rooted with
    | true =>
      have hk := hroot rfl
      subst hk
      simp [render_nil_rooted]
    | false =>
      by_cases hk : k = 0
      · subst hk; simp [render_nil_unrooted]
      · have := render_dots_pos k hk
        constructor
        · intro _ h
          exact hk h.1
        · intro _
          exact Or.inr ⟨rfl, by omega⟩
  | cons e ns =>
    have h1 := render_length_push rooted k e ns (hnames e (by simp)).1
    have h2 := render_length_ge rooted k ns (fun x hx => (hnames x (by simp [hx])).1)
    constructor
    · intro _ h
      cases h.2
    · intro _
      cases rooted with
      | true =>
        have hk := hroot rfl
        subst hk
        have h3 : (Cleaned.render true ⟨0, []⟩).length = 1 := rfl
        exact Or.inl ⟨rfl, by omega⟩
      | false => exact Or.inr ⟨rfl, by omega⟩

/-- The loop of `path.Clean`, started on the bytes of a `Cleaned` with enough
fuel for the rest of the path, ends on the bytes of the `Cleaned` that reading
the rest's elements gives. -/
theorem cleanLoop_eq (rooted : Bool) :
    ∀ (fuel : Nat) (rest : Str) (k : Nat) (names : List Str), rest.length ≤ fuel →
      (∀ e ∈ names, IsName e) → (rooted = true → k = 0) →
      cleanLoop rooted fuel rest (Cleaned.render rooted ⟨k, names⟩)
          (Cleaned.render rooted ⟨k, []⟩).length
        = ((elems rest).foldl (Cleaned.step rooted) ⟨k, names⟩).render rooted
  | 0, rest, k, names, hl, _, _ => by
    have : rest = [] := List.length_eq_zero.mp (Nat.le_zero.mp hl)
    subst this
    simp [cleanLoop, elems, step_nil]
  | fuel + 1, [], k, names, _, _, _ => by simp [cleanLoop, elems, step_nil]
  | fuel + 1, c :: rest, k, names, hl, hnames, hroot => by
    have hl1 : rest.length ≤ fuel := by simpa using hl
    by_cases hc : c = '/'
    · subst hc
      rw [cleanLoop, if_pos rfl, foldl_elems_slash]
      exact cleanLoop_eq rooted fuel rest k names hl1 hnames hroot
    · have htw : (c :: rest).takeWhile (· ≠ '/') = c :: rest.takeWhile (· ≠ '/') :=
        List.takeWhile_cons_of_pos (by simpa using hc)
      have hdw : (c :: rest).dropWhile (· ≠ '/') = rest.dropWhile (· ≠ '/') :=
        List.dropWhile_cons_of_pos (by simpa using hc)
      by_cases hdot : c = '.' ∧ (rest = [] ∨ rest.head? = some '/')
      · -- the element `.`
        rw [cleanLoop, if_neg hc, if_pos hdot, foldl_elems rooted _ (c :: rest), htw, hdw,
          (takeWhile_eq_nil_iff rest).mpr hdot.2, hdot.1, step_dot,
          dropWhile_eq_self rest hdot.2]
        exact cleanLoop_eq rooted fuel rest k names hl1 hnames hroot
      · by_cases hdd : c = '.' ∧ rest.head? = some '.' ∧
            (rest.tail = [] ∨ rest.tail.head? = some '/')
        · -- the element `..`
          obtain ⟨hc1, hh, ht⟩ := hdd
          cases rest with
          | nil => simp at hh
          | cons d r =>
            have hd : d = '.' := by simpa using hh
            subst hc1 hd
            have hl2 : r.length ≤ fuel := by simp at hl1; omega
            have ht1 : r = [] ∨ r.head? = some '/' := by simpa using ht
            have hstep : (elems ('.' :: '.' :: r)).foldl (Cleaned.step rooted) ⟨k, names⟩ =
                (elems r).foldl (Cleaned.step rooted)
                  (Cleaned.step rooted ⟨k, names⟩ ['.', '.']) := by
              rw [foldl_elems rooted _ ('.' :: '.' :: r)]
              have h1 : ('.' :: '.' :: r).takeWhile (· ≠ '/') = ['.', '.'] := by
                rw [List.takeWhile_cons_of_pos (by decide),
                  List.takeWhile_cons_of_pos (by decide), (takeWhile_eq_nil_iff r).mpr ht1]
              have h2 : ('.' :: '.' :: r).dropWhile (· ≠ '/') = r := by
                rw [List.dropWhile_cons_of_pos (by decide),
                  List.dropWhile_cons_of_pos (by decide), dropWhile_eq_self r ht1]
              rw [h1, h2]
            rw [hstep, cleanLoop, if_neg hc, if_neg hdot,
              if_pos ⟨rfl, by simp, by simpa using ht⟩]
            simp only [List.tail_cons]
            cases names with
            | nil =>
              rw [if_neg (lt_irrefl _)]
              cases rooted with
              | true =>
                simp only [Bool.true_eq_false, if_false]
                have : Cleaned.step true ⟨k, []⟩ ['.', '.'] = ⟨k, []⟩ := by
                  simp [Cleaned.step]
                rw [this]
                exact cleanLoop_eq true fuel r k [] hl2 hnames hroot
              | false =>
                simp only [if_true]
                have hs : Cleaned.step false ⟨k, []⟩ ['.', '.'] = ⟨k + 1, []⟩ := by
                  simp [Cleaned.step]
                have hout : (if (Cleaned.render false ⟨k, []⟩).length > 0
                      then Cleaned.render false ⟨k, []⟩ ++ ['/']
                      else Cleaned.render false ⟨k, []⟩) ++ ['.', '.']
                    = Cleaned.render false ⟨k + 1, []⟩ := by
                  rw [render_dots_succ]
                  by_cases hk : k = 0
                  · subst hk; simp [render_nil_unrooted]
                  · have := render_dots_pos k hk
                    simp [hk, this]
                rw [hs, hout]
                exact cleanLoop_eq false fuel r (k + 1) [] hl2 (by simp) (by simp)
            | cons n ns =>
              have hn := hnames n (by simp)
              have hns : ∀ e ∈ ns, IsName e := fun e he => hnames e (by simp [he])
              have h1 := render_length_push rooted k n ns hn.1
              have h2 := render_length_ge rooted k ns (fun x hx => (hns x hx).1)
              have hs : Cleaned.step rooted ⟨k, n :: ns⟩ ['.', '.'] = ⟨k, ns⟩ := by
                simp [Cleaned.step]
              have hb : backtrack (Cleaned.render rooted ⟨k, n :: ns⟩)
                  (Cleaned.render rooted ⟨k, []⟩).length = Cleaned.render rooted ⟨k, ns⟩ := by
                rw [render_push]
                by_cases hk : k = 0 ∧ ns = []
                · obtain ⟨hk1, hk2⟩ := hk
                  subst hk1 hk2
                  simp only [and_self, if_true, List.append_nil]
                  exact backtrack_base _ n hn.2.2.2 hn.1
                · rw [if_neg hk, List.append_assoc]
                  exact backtrack_slash _ n _ hn.2.2.2 h2
              rw [if_pos (by omega), hs, hb]
              exact cleanLoop_eq rooted fuel r k ns hl2 hns hroot
        · -- a name
          have hname : IsName (c :: rest.takeWhile (· ≠ '/')) := by
            refine ⟨by simp, ?_, ?_, ?_⟩
            · intro h
              simp only [List.cons.injEq] at h
              exact hdot ⟨h.1, (takeWhile_eq_nil_iff rest).mp h.2⟩
            · intro h
              simp only [List.cons.injEq] at h
              obtain ⟨h1, h2⟩ := h
              cases rest with
              | nil => simp at h2
              | cons d r =>
                by_cases hd : d = '/'
                · subst hd; simp at h2
                · rw [List.takeWhile_cons_of_pos (by simpa using hd)] at h2
                  simp only [List.cons.injEq] at h2
                  exact hdd ⟨h1, by simp [h2.1], by
                    simpa using (takeWhile_eq_nil_iff r).mp h2.2⟩
            · have := not_mem_takeWhile (c :: rest)
              rwa [htw] at this
          have hlen : (rest.dropWhile (· ≠ '/')).length ≤ fuel :=
            le_trans (List.dropWhile_sublist _).length_le hl1
          rw [cleanLoop, if_neg hc, if_neg hdot, if_neg hdd, foldl_elems rooted _ (c :: rest),
            htw, hdw, step_name rooted _ _ hname]
          simp only
          have hout : (if (rooted = true ∧ (Cleaned.render rooted ⟨k, names⟩).length ≠ 1) ∨
                (rooted = false ∧ (Cleaned.render rooted ⟨k, names⟩).length ≠ 0)
              then Cleaned.render rooted ⟨k, names⟩ ++ ['/']
              else Cleaned.render rooted ⟨k, names⟩) ++ c :: rest.takeWhile (· ≠ '/')
              = Cleaned.render rooted ⟨k, (c :: rest.takeWhile (· ≠ '/')) :: names⟩ := by
            rw [render_push]
            by_cases hk : k = 0 ∧ names = []
            · rw [if_neg (by rw [sep_needed_iff rooted k names hnames hroot]; simpa using hk),
                if_pos hk]
              simp
            · rw [if_pos ((sep_needed_iff rooted k names hnames hroot).mpr hk), if_neg hk]
          rw [hout]
          exact cleanLoop_eq rooted fuel _ k _ hlen
            (fun e he => by
              rcases List.mem_cons.mp he with h | h
              · exact h ▸ hname
              · exact hnames e h) hroot

theorem render_length_pos_rooted (s : Cleaned) : (Cleaned.render true s).length ≠ 0 := by
  simp [Cleaned.render]

/-- The byte-level transcription of `path.Clean` computes the element-level
description: the fuel `len(path)` is enough for the loop to read the whole path. -/
theorem Clean_eq_cleanElems (path : Str) : Clean path = cleanElems path := by
  cases path with
  | nil => rfl
  | cons c rest =>
    by_cases hc : c = '/'
    · subst hc
      have h : cleanLoop true (('/' :: rest).length) rest ['/'] 1 = _ :=
        cleanLoop_eq true (('/' :: rest).length) rest 0 [] (by simp) (by simp) (by simp)
      simp only [Clean, cleanElems, cleanedOf, decide_True, if_true, foldl_elems_slash]
      rw [h]
    · have h : cleanLoop false ((c :: rest).length) (c :: rest) [] 0 = _ :=
        cleanLoop_eq false ((c :: rest).length) (c :: rest) 0 [] (le_refl _)
          (by simp) (by simp)
      simp only [Clean, cleanElems, cleanedOf, hc, decide_False, Bool.false_eq_true, if_false]
      rw [h]

/-! ### What reading elements keeps -/

theorem elems_no_slash : ∀ (p : Str) (e : Str), e ∈ elems p → '/' ∉ e
  | [], e, h => by
    simp [elems] at h
    subst h
    simp
  | c :: cs, e, h => by
    by_cases hc : c = '/'
    · subst hc
      simp only [elems, if_true, List.mem_cons] at h
      rcases h with h | h
      · subst h; simp
      · exact elems_no_slash cs e h
    · simp only [elems, if_neg hc] at h
      cases he : elems cs with
      | nil =>
        rw [he] at h
        simp at h
        subst h
        simpa using fun h => hc h.symm
      | cons a as =>
        rw [he] at h
        simp only [List.mem_cons] at h
        rcases h with h | h
        · subst h
          have := elems_no_slash cs a (by rw [he]; simp)
          simp only [List.mem_cons, not_or]
          exact ⟨fun h => hc h.symm, this⟩
        · exact elems_no_slash cs e (by rw [he]; simp [h])

theorem step_names (rooted : Bool) (s : Cleaned) (e : Str) (he : '/' ∉ e)
    (h : ∀ x ∈ s.names, IsName x) : ∀ x ∈ (Cleaned.step rooted s e).names, IsName x := by
  unfold Cleaned.step
  split
  · exact h
  · rename_i h1
    split
    · split
      · rename_i n ns hs
        intro x hx
        exact h x (by rw [hs]; simp [hx])
      · split
        · exact h
        · simp
    · rename_i h2
      intro x hx
      simp only [List.mem_cons] at hx
      rcases hx with hx | hx
      · subst hx
        simp only [not_or] at h1
        exact ⟨h1.1, h1.2, h2, he⟩
      · exact h x hx

theorem step_dots_rooted (s : Cleaned) (e : Str) : (Cleaned.step true s e).dots = s.dots := by
  unfold Cleaned.step
  split
  · rfl
  · split
    · split <;> simp
    · rfl

theorem foldl_step_inv (rooted : Bool) :
    ∀ (l : List Str) (s : Cleaned), (∀ e ∈ l, '/' ∉ e) → (∀ x ∈ s.names, IsName x) →
      (rooted = true → s.dots = 0) →
      (∀ x ∈ (l.foldl (Cleaned.step rooted) s).names, IsName x) ∧
      (rooted = true → (l.foldl (Cleaned.step rooted) s).dots = 0)
  | [], s, _, h, hr => ⟨h, hr⟩
  | e :: l, s, hl, h, hr => by
    simp only [List.foldl_cons]
    apply foldl_step_inv rooted l _ (fun x hx => hl x (by simp [hx]))
      (step_names rooted s e (hl e (by simp)) h)
    intro hroot
    subst hroot
    rw [step_dots_rooted]
    exact hr rfl

theorem cleanedOf_inv (rooted : Bool) (p : Str) :
    (∀ x ∈ (cleanedOf rooted p).names, IsName x) ∧
      (rooted = true → (cleanedOf rooted p).dots = 0) :=
  foldl_step_inv rooted (elems p) ⟨0, []⟩ (elems_no_slash p) (by simp) (by simp)

theorem foldl_step_names (rooted : Bool) :
    ∀ (l : List Str) (s : Cleaned), (∀ e ∈ l, IsName e) →
      l.foldl (Cleaned.step rooted) s = ⟨s.dots, l.reverse ++ s.names⟩
  | [], s, _ => by simp
  | e :: l, s, h => by
    simp only [List.foldl_cons]
    rw [step_name rooted s e (h e (by simp)),
      foldl_step_names rooted l _ (fun x hx => h x (by simp [hx]))]
    simp

theorem foldl_step_dots :
    ∀ (k j : Nat), (List.replicate k ['.', '.']).foldl (Cleaned.step false) ⟨j, []⟩ = ⟨j + k, []⟩
  | 0, j => by simp
  | k + 1, j => by
    have : Cleaned.step false ⟨j, []⟩ ['.', '.'] = ⟨j + 1, []⟩ := by simp [Cleaned.step]
    simp only [List.replicate_succ, List.foldl_cons, this]
    rw [foldl_step_dots k (j + 1)]
    congr 1
    omega

theorem elems_append_slash : ∀ a b : Str, elems (a ++ '/' :: b) = elems a ++ elems b
  | [], b => by simp [elems]
  | c :: a, b => by
    have ih := elems_append_slash a b
    by_cases hc : c = '/'
    · subst hc
      simp [elems, ih]
    · have h1 : elems (c :: (a ++ '/' :: b)) =
          match elems (a ++ '/' :: b) with
          | [] => [[c]]
          | e :: es => (c :: e) :: es := by simp [elems, hc]
      have h2 : elems (c :: a) =
          match elems a with
          | [] => [[c]]
          | e :: es => (c :: e) :: es := by simp [elems, hc]
      rw [List.cons_append, h1, h2, ih, elems_eq a]
      simp

theorem elems_of_no_slash : ∀ e : Str, '/' ∉ e → elems e = [e]
  | [], _ => rfl
  | c :: cs, h => by
    have hc : c ≠ '/' := fun hh => h (by simp [hh])
    have ih := elems_of_no_slash cs (fun hh => h (by simp [hh]))
    simp [elems, hc, ih]

theorem elems_stringsJoin :
    ∀ l : List Str, l ≠ [] → (∀ e ∈ l, '/' ∉ e) → elems (stringsJoin l ['/']) = l
  | [], h, _ => absurd rfl h
  | [e], _, h => by simpa [stringsJoin] using elems_of_no_slash e (h e (by simp))
  | a :: b :: l, _, h => by
    have ih := elems_stringsJoin (b :: l) (by simp) (fun x hx => h x (by simp [hx]))
    rw [stringsJoin_cons_cons]
    simp only [List.append_assoc, List.singleton_append]
    rw [elems_append_slash, ih, elems_of_no_slash a (h a (by simp))]
    simp

theorem stringsJoin_append (sep : Str) :
    ∀ A B : List Str, A ≠ [] → B ≠ [] →
      stringsJoin (A ++ B) sep = stringsJoin A sep ++ sep ++ stringsJoin B sep
  | [], _, h, _ => absurd rfl h
  | [a], b :: B, _, _ => by simp [stringsJoin_cons_cons, stringsJoin]
  | [a], [], _, h => absurd rfl h
  | a :: a1 :: A, B, _, hB => by
    have ih := stringsJoin_append sep (a1 :: A) B (by simp) hB
    simp only [List.cons_append, stringsJoin_cons_cons] at ih ⊢
    rw [ih]
    simp

/-! ### Cleaning a cleaned path with more behind it -/

theorem dotdot_no_slash (k : Nat) : ∀ e ∈ List.replicate k ['.', '.'], '/' ∉ e := by
  intro e he
  rw [List.eq_of_mem_replicate he]
  decide

theorem render_rooted (names : List Str) :
    Cleaned.render true ⟨0, names⟩ = '/' :: stringsJoin names.reverse ['/'] := by
  simp [Cleaned.render]

theorem cleanedOf_render (rooted : Bool) (k : Nat) (names : List Str)
    (hnames : ∀ e ∈ names, IsName e) (hroot : rooted = true → k = 0) :
    (elems (Cleaned.render rooted ⟨k, names⟩)).foldl (Cleaned.step rooted) ⟨0, []⟩
      = ⟨k, names⟩ := by
  have hrev : ∀ e ∈ names.reverse, IsName e := fun e he => hnames e (List.mem_reverse.mp he)
  cases rooted with
  | true =>
    have hk := hroot rfl
    subst hk
    rw [render_rooted, foldl_elems_slash]
    by_cases hn : names = []
    · subst hn
      simp [stringsJoin, elems, step_nil]
    · rw [elems_stringsJoin _ (by simpa using hn) (fun e he => (hrev e he).2.2.2),
        foldl_step_names true _ _ hrev]
      simp
  | false =>
    by_cases hn : k = 0 ∧ names = []
    · obtain ⟨h1, h2⟩ := hn
      subst h1 h2
      simp [Cleaned.render, stringsJoin, elems, step_nil]
    · have hne : List.replicate k ['.', '.'] ++ names.reverse ≠ [] := by
        intro hh
        simp only [List.append_eq_nil, List.reverse_eq_nil_iff] at hh
        apply hn
        refine ⟨?_, hh.2⟩
        have := congrArg List.length hh.1
        simpa using this
      simp only [Cleaned.render, Bool.false_eq_true, if_false, List.nil_append]
      rw [elems_stringsJoin _ hne (by
          intro e he
          rcases List.mem_append.mp he with h | h
          · exact dotdot_no_slash k e h
          · exact (hrev e h).2.2.2),
        List.foldl_append, foldl_step_dots, foldl_step_names false _ _ hrev]
      simp

theorem stringsJoin_head (e : Str) (l : List Str) (sep : Str) :
    ∃ t, stringsJoin (e :: l) sep = e ++ t := by
  cases l with
  | nil => exact ⟨[], by simp [stringsJoin]⟩
  | cons b l => exact ⟨sep ++ stringsJoin (b :: l) sep, by simp [stringsJoin_cons_cons]⟩

theorem stringsJoin_ne_nil (l : List Str) (sep : Str) (hl : l ≠ []) (h : ∀ e ∈ l, e ≠ []) :
    stringsJoin l sep ≠ [] := by
  cases l with
  | nil => exact absurd rfl hl
  | cons e l =>
    obtain ⟨t, ht⟩ := stringsJoin_head e l sep
    rw [ht]
    have := h e (by simp)
    simp [this]

/-- The first byte of a cleaned directory path says whether it is rooted. -/
theorem render_head (rooted : Bool) (k : Nat) (names : List Str)
    (hnames : ∀ e ∈ names, IsName e)
    (hne : rooted = true ∨ ¬ (k = 0 ∧ names = [])) :
    ∃ c rest, Cleaned.render rooted ⟨k, names⟩ = c :: rest ∧ decide (c = '/') = rooted := by
  cases rooted with
  | true =>
    exact ⟨'/', stringsJoin (List.replicate k ['.', '.'] ++ names.reverse) ['/'],
      by simp [Cleaned.render], by simp⟩
  | false =>
    have hne1 : ¬ (k = 0 ∧ names = []) := by simpa using hne
    simp only [Cleaned.render, Bool.false_eq_true, if_false, List.nil_append]
    cases k with
    | zero =>
      have hn : names.reverse ≠ [] := by simpa using hne1
      cases hr : names.reverse with
      | nil => exact absurd hr hn
      | cons e l =>
        have he : IsName e := hnames e (List.mem_reverse.mp (by rw [hr]; simp))
        obtain ⟨t, ht⟩ := stringsJoin_head e l ['/']
        simp only [List.replicate_zero, List.nil_append, ht]
        cases e with
        | nil => exact absurd rfl he.1
        | cons c e =>
          refine ⟨c, e ++ t, rfl, ?_⟩
          have : c ≠ '/' := fun h => he.2.2.2 (by simp [h])
          simpa using this
    | succ k =>
      obtain ⟨t, ht⟩ := stringsJoin_head ['.', '.']
        (List.replicate k ['.', '.'] ++ names.reverse) ['/']
      rw [List.replicate_succ, List.cons_append, ht]
      exact ⟨'.', '.' :: t, rfl, by decide⟩

theorem render_length_ne_zero (rooted : Bool) (k : Nat) (names : List Str)
    (hnames : ∀ e ∈ names, IsName e)
    (hne : rooted = true ∨ ¬ (k = 0 ∧ names = [])) :
    (Cleaned.render rooted ⟨k, names⟩).length ≠ 0 := by
  obtain ⟨c, rest, h, _⟩ := render_head rooted k names hnames hne
  rw [h]
  simp

theorem render_append (rooted : Bool) (k : Nat) (names g : List Str) (hg : g ≠ [])
    (hne : ¬ (k = 0 ∧ names = [])) :
    Cleaned.render rooted ⟨k, g.reverse ++ names⟩ =
      Cleaned.render rooted ⟨k, names⟩ ++ '/' :: stringsJoin g ['/'] := by
  have hA : List.replicate k ['.', '.'] ++ names.reverse ≠ [] := by
    intro hh
    simp only [List.append_eq_nil, List.reverse_eq_nil_iff] at hh
    apply hne
    refine ⟨?_, hh.2⟩
    have := congrArg List.length hh.1
    simpa using this
  simp only [Cleaned.render, List.reverse_append, List.reverse_reverse, ← List.append_assoc]
  rw [stringsJoin_append ['/'] _ g hA hg]
  simp

/-- Cleaning a cleaned directory path followed by a rooted clean path. -/
theorem Clean_append (rooted : Bool) (k : Nat) (names g : List Str)
    (hnames : ∀ e ∈ names, IsName e) (hroot : rooted = true → k = 0)
    (hne : rooted = true ∨ ¬ (k = 0 ∧ names = [])) (hg : ∀ e ∈ g, IsName e) :
    Clean (Cleaned.render rooted ⟨k, names⟩ ++ '/' :: '/' :: stringsJoin g ['/'])
      = Cleaned.render rooted ⟨k, g.reverse ++ names⟩ := by
  obtain ⟨c, rest, hD, hc⟩ := render_head rooted k names hnames hne
  have hnames2 : ∀ e ∈ g.reverse ++ names, IsName e := by
    intro e he
    rcases List.mem_append.mp he with h | h
    · exact hg e (List.mem_reverse.mp h)
    · exact hnames e h
  have hne2 : rooted = true ∨ ¬ (k = 0 ∧ g.reverse ++ names = []) := by
    rcases hne with h | h
    · exact Or.inl h
    · refine Or.inr (fun hh => h ⟨hh.1, ?_⟩)
      have := hh.2
      simp only [List.append_eq_nil] at this
      exact this.2
  have hfold : cleanedOf rooted (Cleaned.render rooted ⟨k, names⟩ ++
      '/' :: '/' :: stringsJoin g ['/']) = ⟨k, g.reverse ++ names⟩ := by
    rw [cleanedOf, elems_append_slash, List.foldl_append,
      cleanedOf_render rooted k names hnames hroot, foldl_elems_slash]
    by_cases hgn : g = []
    · subst hgn
      simp [stringsJoin, elems, step_nil]
    · rw [elems_stringsJoin g hgn (fun e he => (hg e he).2.2.2), foldl_step_names rooted g _ hg]
  rw [Clean_eq_cleanElems]
  have hcons : Cleaned.render rooted ⟨k, names⟩ ++ '/' :: '/' :: stringsJoin g ['/']
      = c :: (rest ++ '/' :: '/' :: stringsJoin g ['/']) := by rw [hD]; rfl
  rw [cleanElems.eq_def]
  rw [hcons]
  simp only [hc]
  rw [← hcons, hfold, if_neg (render_length_ne_zero rooted k _ hnames2 hne2)]

/-! ## The registry: `newWebfs`, `Parse`, `Lookup` -/

/-- Appending one entry per name to the group `k` of a one-group map. -/
theorem foldl_append_group (k : Str) (g : Str → page) :
    ∀ (l : List Str) (acc : List page),
      l.foldl (fun m c => mapSet m k (mapGet m k ++ [g c])) [(k, acc)] = [(k, acc ++ l.map g)]
  | [], acc => by simp
  | c :: l, acc => by
    simp only [List.foldl_cons, mapGet, mapSet, if_true, List.map_cons]
    rw [foldl_append_group k g l (acc ++ [g c])]
    simp

theorem dirPage_Sidebar (path : Str) (files dirs : List Str) :
    (mediafs.dirPage path files dirs).Sidebar =
      [(rootGroup, (files ++ dirs).map (fun c => newPage c (Join [path, c])))] := by
  simp only [mediafs.dirPage, mapSet]
  rw [foldl_append_group, foldl_append_group]
  simp

theorem Pkg_dirPage_Sidebar (path : Str) (files dirs : List Str) :
    (Pkg.mediafs.dirPage path files dirs).Sidebar =
      [(rootGroup, (files ++ dirs).map (fun c => newPage c (Join [path, c])))] := by
  simp only [Pkg.mediafs.dirPage, mapSet]
  rw [foldl_append_group]
  simp

theorem dirPage_eq (path : Str) (files dirs : List Str) :
    mediafs.dirPage path files dirs =
      ⟨fileBrowser, slash,
        [(rootGroup, files.map (fun c => ⟨c, Join [path, c], []⟩)
          ++ dirs.map (fun c => ⟨c, Join [path, c], []⟩))]⟩ := by
  have h := dirPage_Sidebar path files dirs
  have e : mediafs.dirPage path files dirs =
      ⟨fileBrowser, slash, (mediafs.dirPage path files dirs).Sidebar⟩ := rfl
  rw [e, h]
  simp [newPage]

theorem Pkg_dirPage_eq (path : Str) (files dirs : List Str) :
    Pkg.mediafs.dirPage path files dirs = mediafs.dirPage path files dirs := by
  have e1 : Pkg.mediafs.dirPage path files dirs =
      ⟨fileBrowser, slash, (Pkg.mediafs.dirPage path files dirs).Sidebar⟩ := rfl
  have e2 : mediafs.dirPage path files dirs =
      ⟨fileBrowser, slash, (mediafs.dirPage path files dirs).Sidebar⟩ := rfl
  rw [e1, e2, Pkg_dirPage_Sidebar, dirPage_Sidebar]

section Registry

variable {W B : Type} (sys : Sys W B)

theorem newWebfs_error_world (w : W) (path e : Str)
    (h : (newWebfs sys w path).1 = .error e) : (newWebfs sys w path).2 = w := by
  unfold newWebfs at h ⊢
  simp only at h ⊢
  cases h1 : sys.stat w (domainRoot path) with
  | none => rfl
  | some d =>
    cases h2 : sys.readFile w (Join [domainRoot path, typeFile]) with
    | error err => rfl
    | ok read =>
      cases h3 : configTranslator sys (TrimSuffix read newline) with
      | none => simp [h3]
      | some c => simp [h1, h2, h3] at h

theorem Parse_of_error (sm : sectionMux B) (w : W) (path e : Str)
    (h : (newWebfs sys w path).1 = .error e) :
    sectionMux.Parse sys sm w path =
      (.error (issueCreating path e), sm, w) := by
  have hw := newWebfs_error_world sys w path e h
  unfold sectionMux.Parse
  cases hn : newWebfs sys w path with
  | mk r w1 =>
    rw [hn] at h hw
    simp only at h hw
    subst h hw
    rfl

theorem Parse_of_ok (sm : sectionMux B) (w w1 : W) (path : Str) (fs : webfs B)
    (h : newWebfs sys w path = (.ok fs, w1)) :
    sectionMux.Parse sys sm w path = (.ok fs, sm.set path fs, w1) := by
  simp [sectionMux.Parse, h]

theorem Parse_error_iff (sm : sectionMux B) (w : W) (path : Str) :
    (∃ e, (sectionMux.Parse sys sm w path).1 = .error e) ↔
      ∃ e, (newWebfs sys w path).1 = .error e := by
  unfold sectionMux.Parse
  cases hn : newWebfs sys w path with
  | mk r w1 =>
    cases r with
    | error e => simp
    | ok fs => simp

theorem Lookup_of_cached (sm : sectionMux B) (w : W) (host : Str) (fs : webfs B)
    (h : sm host = some fs) : sectionMux.Lookup sys sm w host = (some fs, sm, w) := by
  simp [sectionMux.Lookup, h]

theorem Lookup_of_error (sm : sectionMux B) (w : W) (host e : Str) (hm : sm host = none)
    (h : (newWebfs sys w host).1 = .error e) :
    sectionMux.Lookup sys sm w host = (none, sm, w) := by
  simp [sectionMux.Lookup, hm, Parse_of_error sys sm w host e h]

theorem Lookup_of_ok (sm : sectionMux B) (w w1 : W) (host : Str) (fs : webfs B)
    (hm : sm host = none) (h : newWebfs sys w host = (.ok fs, w1)) :
    sectionMux.Lookup sys sm w host = (some fs, sm.set host fs, w1) := by
  simp [sectionMux.Lookup, hm, Parse_of_ok sys sm w w1 host fs h]

theorem newWebfs_unknown_type (w : W) (path content : Str) (isDir : Bool)
    (hstat : sys.stat w (domainRoot path) = some isDir)
    (hread : sys.readFile w (Join [domainRoot path, typeFile]) = .ok content)
    (hblog : TrimSuffix content newline ≠ blogName)
    (hmedia : TrimSuffix content newline ≠ mediaName) :
    newWebfs sys w path =
      (.error (typeNotDefined (TrimSuffix content newline)), w) := by
  simp [newWebfs, hstat, hread, configTranslator, hblog, hmedia]

end Registry

/-! ## The claims about the registry and the dispatcher -/

section Dispatcher

variable {W B : Type} (sys : Sys W B)

theorem ServeHTTP_of_key (sm : sectionMux B) (w : W) (r : Request) (key : Str)
    (hkey : hostKey r.Host = some key) :
    sectionMux.ServeHTTP sys sm w r =
      match sectionMux.Lookup sys sm w key with
      | (some fs, sm1, w1) =>
        some (respond (requestedFile r.Path) (fs.Read sys w1 (requestedFile r.Path)), sm1, w1)
      | (none, sm1, w1) => some (.notFound, sm1, w1) := by
  simp only [sectionMux.ServeHTTP, hkey]

/-- When the target exists and cannot be opened as a file, `mediafs.Read` of
`src/lib/mediafs.go` turns every error of `openDir` into a successful stream
over the error's text. -/
theorem Read_of_openDir_error (mfs : mediafs) (w : W) (request e : Str)
    (hstat : sys.stat w (mfs.readPath request) = some true)
    (hdir : mfs.openDir sys w request = .error e) :
    mfs.Read sys w request = .ok (.reader e) := by
  simp [mediafs.Read, hstat, hdir]

/-- The only error `mediafs.Read` of `src/lib/mediafs.go` returns is "File not found". -/
theorem Read_error_eq (mfs : mediafs) (w : W) (request e : Str)
    (h : mfs.Read sys w request = .error e) : e = fileNotFound := by
  unfold mediafs.Read at h
  simp only at h
  split at h
  · split at h
    · cases h
    · split at h <;> cases h
  · cases h; rfl

end Dispatcher

/-- The method `ServeHTTP` always answers. -/
theorem ServeHTTP_isSome {W B : Type} (sys : Sys W B) (sm : sectionMux B) (w : W) (r : Request) :
    (sectionMux.ServeHTTP sys sm w r).isSome = true := by
  have h := hostKey_isSome r.Host
  cases hk : hostKey r.Host with
  | none => simp [hk] at h
  | some key =>
    simp only [sectionMux.ServeHTTP, hk]
    split <;> rfl

/-- C1 (counterexample): the hostname `www.example.com` has no colon, yet the
Host value `www.www.example.com` gets the key `/` while `www.example.com` (with
or without a port) gets the key `example.com/`. -/
theorem C1_www_hostname_counterexample :
    ':' ∉ "www.example.com".toList ∧
    hostKey (www ++ "www.example.com".toList) = some "/".toList ∧
    hostKey ("www.example.com".toList ++ ":8080".toList) = some "example.com/".toList ∧
    hostKey "www.example.com".toList = some "example.com/".toList ∧
    hostKey (www ++ "www.example.com".toList) ≠ hostKey "www.example.com".toList := by
  decide

/-- C1 (amended): for a hostname `H` without a colon and without the text `www.`
inside, the Host values `"www."+H`, `H+":8080"` and `H` all get the registry key
`H+"/"` (no split is indexed out of range), so `ServeHTTP` does the same for the
three: same lookup, same backend, same response, same registry afterwards. -/
theorem C1_host_key_normalised {W B : Type} (sys : Sys W B) (H : Str)
    (hc : ':' ∉ H) (hw : Contains H www = false) :
    hostKey (www ++ H) = some (H ++ ['/']) ∧
    hostKey (H ++ ":8080".toList) = some (H ++ ['/']) ∧
    hostKey H = some (H ++ ['/']) ∧
    ∀ (sm : sectionMux B) (w : W) (path : Str),
      sectionMux.ServeHTTP sys sm w ⟨www ++ H, path⟩ = sectionMux.ServeHTTP sys sm w ⟨H, path⟩ ∧
      sectionMux.ServeHTTP sys sm w ⟨H ++ ":8080".toList, path⟩ =
        sectionMux.ServeHTTP sys sm w ⟨H, path⟩ := by
  have h1 := hostKey_www hc hw
  have h3 := hostKey_of_plain hc hw
  have h2 : hostKey (H ++ ":8080".toList) = some (H ++ ['/']) := by
    have := hostKey_port H "8080".toList hc
    rw [← h3, ← this]; rfl
  refine ⟨h1, h2, h3, fun sm w path => ⟨?_, ?_⟩⟩
  · rw [ServeHTTP_of_key sys sm w ⟨www ++ H, path⟩ _ h1,
      ServeHTTP_of_key sys sm w ⟨H, path⟩ _ h3]
  · rw [ServeHTTP_of_key sys sm w ⟨H ++ ":8080".toList, path⟩ _ h2,
      ServeHTTP_of_key sys sm w ⟨H, path⟩ _ h3]

/-- C1 (instance): the hostname `example.com`. -/
theorem C1_host_key_normalised_witness :
    hostKey (www ++ "example.com".toList) = some ("example.com".toList ++ ['/']) ∧
    hostKey ("example.com".toList ++ ":8080".toList) = some ("example.com".toList ++ ['/']) ∧
    hostKey "example.com".toList = some ("example.com".toList ++ ['/']) ∧
    ∀ (sm : sectionMux Unit) (w : DemoWorld) (path : Str),
      sectionMux.ServeHTTP demoSys sm w ⟨www ++ "example.com".toList, path⟩ =
        sectionMux.ServeHTTP demoSys sm w ⟨"example.com".toList, path⟩ ∧
      sectionMux.ServeHTTP demoSys sm w ⟨"example.com".toList ++ ":8080".toList, path⟩ =
        sectionMux.ServeHTTP demoSys sm w ⟨"example.com".toList, path⟩ :=
  C1_host_key_normalised demoSys "example.com".toList (by decide) (by decide)

/-- C3 (the code at the failing input): in `worldMedia` the directory
`domains/x/media` exists and the listing template does not.  `openDir` fails
with "Template not found"; `mediafs.Read` of `src/lib/mediafs.go` returns a
successful stream whose bytes are that text, and the dispatcher serves it as
content; `Read` of `src/pkg/mediafs` returns the error. -/
theorem C3_listing_error_served_as_content :
    mediafs.openDir demoSys ⟨"domains/x/media".toList⟩ worldMedia "/".toList
      = .error templateNotFound ∧
    mediafs.Read demoSys ⟨"domains/x/media".toList⟩ worldMedia "/".toList
      = .ok (.reader templateNotFound) ∧
    (sectionMux.ServeHTTP demoSys (sectionMux.empty Unit) worldMedia
        ⟨"x".toList, "/".toList⟩).map (fun r => r.1)
      = some (.content "/".toList (.reader "Template not found".toList)) ∧
    Pkg.mediafs.Read demoSys enoent ⟨"domains/x/media".toList, "domains/x/dir.tmpl".toList⟩
        worldMedia "/".toList
      = .error templateNotFound := by
  refine ⟨by rfl, by rfl, by decide, by rfl⟩

/-- C4: when the backend's `Read` returns an error `e` inside `ServeHTTP`, the
response is Not-Found exactly when `e` is "File not found", and for every other
`e` it is `http.Error` with the fixed text "Internal server error" and the
status 500: nothing of `e` is in it. -/
theorem C4_error_responses {W B : Type} (sys : Sys W B) (sm sm1 : sectionMux B) (w w1 : W)
    (r : Request) (key : Str) (fs : webfs B) (e : Str)
    (hkey : hostKey r.Host = some key)
    (hlookup : sectionMux.Lookup sys sm w key = (some fs, sm1, w1))
    (hread : fs.Read sys w1 (requestedFile r.Path) = .error e) :
    ∃ resp, sectionMux.ServeHTTP sys sm w r = some (resp, sm1, w1) ∧
      (resp = .notFound ↔ e = fileNotFound) ∧
      (e ≠ fileNotFound → resp = .error internalServerError 500) := by
  rw [ServeHTTP_of_key sys sm w r key hkey, hlookup]
  simp only [hread, respond]
  by_cases he : e = fileNotFound
  · refine ⟨.notFound, by simp [he], ⟨fun _ => he, fun _ => rfl⟩, fun h => absurd he h⟩
  · refine ⟨.error internalServerError 500, by simp [he], ?_, fun _ => rfl⟩
    constructor
    · intro h; cases h
    · intro h; exact absurd h he

/-- C4 (instance): the blog backend of `worldBlog` fails with "blog backend
failure"; the response is the answer 500 with the fixed text. -/
theorem C4_error_responses_witness :
    ∃ resp, sectionMux.ServeHTTP demoSys (sectionMux.empty Unit) worldBlog
        ⟨"b".toList, "/".toList⟩
        = some (resp, (sectionMux.empty Unit).set "b/".toList (.blog ()), worldBlog) ∧
      (resp = .notFound ↔ "blog backend failure".toList = fileNotFound) ∧
      ("blog backend failure".toList ≠ fileNotFound →
        resp = .error internalServerError 500) :=
  C4_error_responses demoSys (sectionMux.empty Unit)
    ((sectionMux.empty Unit).set "b/".toList (.blog ())) worldBlog worldBlog
    ⟨"b".toList, "/".toList⟩ "b/".toList (.blog ()) "blog backend failure".toList
    (by decide) (by rfl) (by rfl)

/-- C6: when `Parse` fails for the key `h`, the registry after `Parse` and after
`Lookup` is the registry before, and `Lookup` returns what the registry held
(nil for an unseen host): no negative result is stored.  A later `Lookup` of `h`
on a filesystem where `newWebfs` succeeds returns a backend; for an unseen host
it is the backend `newWebfs` just built, now stored under `h`. -/
theorem C6_failed_resolution_not_cached {W B : Type} (sys : Sys W B) (sm : sectionMux B)
    (w : W) (h e : Str) (hfail : (sectionMux.Parse sys sm w h).1 = .error e) :
    (sectionMux.Parse sys sm w h).2.1 = sm ∧
    (sectionMux.Lookup sys sm w h).2.1 = sm ∧
    (sectionMux.Lookup sys sm w h).1 = sm h ∧
    ∀ (w2 w3 : W) (fs : webfs B), newWebfs sys w2 h = (.ok fs, w3) →
      (sectionMux.Lookup sys (sectionMux.Lookup sys sm w h).2.1 w2 h).1.isSome = true ∧
      (sm h = none →
        sectionMux.Lookup sys (sectionMux.Lookup sys sm w h).2.1 w2 h
          = (some fs, sm.set h fs, w3)) := by
  obtain ⟨e1, he1⟩ := (Parse_error_iff sys sm w h).mp ⟨e, hfail⟩
  have hp := Parse_of_error sys sm w h e1 he1
  have hl : (sectionMux.Lookup sys sm w h).2.1 = sm ∧ (sectionMux.Lookup sys sm w h).1 = sm h := by
    cases hm : sm h with
    | none => simp [Lookup_of_error sys sm w h e1 hm he1]
    | some fs0 => simp [Lookup_of_cached sys sm w h fs0 hm]
  refine ⟨by rw [hp], hl.1, hl.2, fun w2 w3 fs hok => ?_⟩
  rw [hl.1]
  constructor
  · cases hm : sm h with
    | none => simp [Lookup_of_ok sys sm w2 w3 h fs hm hok]
    | some fs0 => simp [Lookup_of_cached sys sm w2 h fs0 hm]
  · intro hm
    exact Lookup_of_ok sys sm w2 w3 h fs hm hok

/-- C6 (instance): the host `x` fails to resolve in `worldEmpty` and resolves
in `worldMedia`. -/
theorem C6_failed_resolution_not_cached_witness :
    (sectionMux.Parse demoSys (sectionMux.empty Unit) worldEmpty "x/".toList).2.1
      = sectionMux.empty Unit ∧
    (sectionMux.Lookup demoSys (sectionMux.empty Unit) worldEmpty "x/".toList).2.1
      = sectionMux.empty Unit ∧
    (sectionMux.Lookup demoSys (sectionMux.empty Unit) worldEmpty "x/".toList).1
      = sectionMux.empty Unit "x/".toList ∧
    ∀ (w2 w3 : DemoWorld) (fs : webfs Unit), newWebfs demoSys w2 "x/".toList = (.ok fs, w3) →
      (sectionMux.Lookup demoSys
        (sectionMux.Lookup demoSys (sectionMux.empty Unit) worldEmpty "x/".toList).2.1
        w2 "x/".toList).1.isSome = true ∧
      (sectionMux.empty Unit "x/".toList = none →
        sectionMux.Lookup demoSys
          (sectionMux.Lookup demoSys (sectionMux.empty Unit) worldEmpty "x/".toList).2.1
          w2 "x/".toList
          = (some fs, (sectionMux.empty Unit).set "x/".toList fs, w3)) :=
  C6_failed_resolution_not_cached demoSys (sectionMux.empty Unit) worldEmpty "x/".toList
    (issueCreating "x/".toList fileNotFound) (by rfl)

/-- C7 (counterexample): the domain `x` is resolved while its type file says
"media" and its backend is stored; the type file then changes to "bogus", which
is no key of `configTranslator`, and `newWebfs` fails on it.  The dispatcher
still answers the request for host `x` from the stored backend, not with
Not-Found. -/
theorem C7_cached_backend_counterexample :
    (sectionMux.ServeHTTP demoSys (sectionMux.empty Unit) worldMedia requestX).map (fun r => r.1)
      = some (.content "/a.txt".toList (.file "domains/x/media/a.txt".toList)) ∧
    hostKey requestX.Host = some "x/".toList ∧
    demoSys.stat worldBogus (domainRoot "x/".toList) = some true ∧
    demoSys.readFile worldBogus (Join [domainRoot "x/".toList, typeFile])
      = .ok "bogus\n".toList ∧
    TrimSuffix "bogus\n".toList newline = "bogus".toList ∧
    "bogus".toList ≠ blogName ∧ "bogus".toList ≠ mediaName ∧
    (newWebfs demoSys worldBogus "x/".toList).1 = .error (typeNotDefined "bogus".toList) ∧
    (sectionMux.ServeHTTP demoSys muxAfterMedia worldBogus requestX).map (fun r => r.1)
      = some (.content "/a.txt".toList (.file "domains/x/media/a.txt".toList)) ∧
    (sectionMux.ServeHTTP demoSys muxAfterMedia worldBogus requestX).map (fun r => r.1)
      ≠ some .notFound := by
  refine ⟨by decide, by decide, by decide, by rfl, by decide, by decide, by decide, by rfl,
    by decide, by decide⟩

/-- C7 (amended): for a domain whose root exists and whose type file, one
trailing newline removed, is neither "blog" nor "media", `newWebfs` returns the
error "Type ... is not defined" and no backend, and leaves the world as it was
(no constructor ran); and when the registry holds no backend under the host's
key, `Lookup` returns nil, the registry is unchanged and the dispatcher answers
Not-Found. -/
theorem C7_unknown_type_not_found {W B : Type} (sys : Sys W B) (sm : sectionMux B) (w : W)
    (r : Request) (key content : Str) (isDir : Bool)
    (hkey : hostKey r.Host = some key)
    (hstat : sys.stat w (domainRoot key) = some isDir)
    (hread : sys.readFile w (Join [domainRoot key, typeFile]) = .ok content)
    (hblog : TrimSuffix content newline ≠ blogName)
    (hmedia : TrimSuffix content newline ≠ mediaName) :
    newWebfs sys w key = (.error (typeNotDefined (TrimSuffix content newline)), w) ∧
    (sm key = none →
      sectionMux.Lookup sys sm w key = (none, sm, w) ∧
      sectionMux.ServeHTTP sys sm w r = some (.notFound, sm, w)) := by
  have hn := newWebfs_unknown_type sys w key content isDir hstat hread hblog hmedia
  refine ⟨hn, fun hm => ?_⟩
  have hl : sectionMux.Lookup sys sm w key = (none, sm, w) :=
    Lookup_of_error sys sm w key _ hm (by rw [hn])
  refine ⟨hl, ?_⟩
  rw [ServeHTTP_of_key sys sm w r key hkey, hl]

/-- C7 (instance): host `x` in `worldBogus`, with the empty registry. -/
theorem C7_unknown_type_not_found_witness :
    newWebfs demoSys worldBogus "x/".toList
      = (.error (typeNotDefined (TrimSuffix "bogus\n".toList newline)), worldBogus) ∧
    (sectionMux.empty Unit "x/".toList = none →
      sectionMux.Lookup demoSys (sectionMux.empty Unit) worldBogus "x/".toList
        = (none, sectionMux.empty Unit, worldBogus) ∧
      sectionMux.ServeHTTP demoSys (sectionMux.empty Unit) worldBogus requestX
        = some (.notFound, sectionMux.empty Unit, worldBogus)) :=
  C7_unknown_type_not_found demoSys (sectionMux.empty Unit) worldBogus requestX "x/".toList
    "bogus\n".toList true (by decide) (by decide) (by rfl) (by decide) (by decide)

/-- C8: whenever the enumeration returns `files` and `dirs`, the page
`mediafs.openDir` hands to the listing template for the browse path `p` is the
page "File Browser" with exactly one group, "root", whose entries are those of
`files` in order followed by those of `dirs` in order, the entry of a child `c`
having the name `c` and the link `filepath.Join(p, c)`; `openDir` returns what
the template writes for that page, or the template's error.  There are
`|files| + |dirs|` entries, and the same holds in `src/pkg/mediafs`.  For the
files `a.txt`, `b.txt` and the directory `sub` under `/docs` the links are
`/docs/a.txt`, `/docs/b.txt`, `/docs/sub`. -/
theorem C8_listing_page_model {W B : Type} (sys : Sys W B) (mfs : mediafs)
    (pmfs : Pkg.mediafs) (w : W) (p : Str) (files dirs : List Str) :
    (sys.readDir w (mfs.root ++ p) = .ok (files, dirs) →
      mfs.openDir sys w p =
        match sys.parseFiles w defaultDirTempl with
        | none => .error templateNotFound
        | some t =>
          match t ⟨fileBrowser, slash,
              [(rootGroup, files.map (fun c => ⟨c, Join [p, c], []⟩)
                ++ dirs.map (fun c => ⟨c, Join [p, c], []⟩))]⟩ with
          | none => .error templateFailed
          | some out => .ok (.reader out)) ∧
    (sys.basicfsList w (Join [pmfs.root, p]) = .ok (files, dirs) →
      pmfs.openDir sys w p =
        match sys.parseFiles w pmfs.templ with
        | none => .error templateNotFound
        | some t =>
          match t ⟨fileBrowser, slash,
              [(rootGroup, files.map (fun c => ⟨c, Join [p, c], []⟩)
                ++ dirs.map (fun c => ⟨c, Join [p, c], []⟩))]⟩ with
          | none => .error templateFailed
          | some out => .ok (.reader out)) ∧
    (mediafs.dirPage p files dirs).Sidebar
      = [(rootGroup, files.map (fun c => ⟨c, Join [p, c], []⟩)
          ++ dirs.map (fun c => ⟨c, Join [p, c], []⟩))] ∧
    (Pkg.mediafs.dirPage p files dirs).Sidebar = (mediafs.dirPage p files dirs).Sidebar ∧
    (mapGet (mediafs.dirPage p files dirs).Sidebar rootGroup).length
      = files.length + dirs.length ∧
    (mapGet (mediafs.dirPage "/docs".toList ["a.txt".toList, "b.txt".toList]
        ["sub".toList]).Sidebar rootGroup).map (fun e => (e.Title, e.Link))
      = [("a.txt".toList, "/docs/a.txt".toList), ("b.txt".toList, "/docs/b.txt".toList),
         ("sub".toList, "/docs/sub".toList)] := by
  have h := dirPage_Sidebar p files dirs
  have he := dirPage_eq p files dirs
  refine ⟨?_, ?_, ?_, ?_, ?_, ?_⟩
  · intro hr
    simp only [mediafs.openDir, hr, he]
  · intro hr
    simp only [Pkg.mediafs.openDir, hr, Pkg_dirPage_eq, he]
  · rw [h]; simp [newPage]
  · rw [h, Pkg_dirPage_Sidebar]
  · rw [h]; simp [mapGet]
  · rw [dirPage_Sidebar]
    decide

/-- C8 (instance): the directory `docs` of `worldListing`, browsed as `/docs`,
in `src/lib/mediafs.go` and in `src/pkg/mediafs`: the template's text followed
by the three links, files first. -/
theorem C8_listing_page_model_witness :
    mediafs.openDir demoSys ⟨"domains/x/media".toList⟩ worldListing "/docs".toList
      = .ok (.reader "Index:/docs/a.txt/docs/b.txt/docs/sub".toList) ∧
    Pkg.mediafs.openDir demoSys ⟨"domains/x/media".toList, "domains/x/dir.tmpl".toList⟩
        worldListing "/docs".toList
      = .ok (.reader "Index:/docs/a.txt/docs/b.txt/docs/sub".toList) :=
  ⟨(C8_listing_page_model demoSys ⟨"domains/x/media".toList⟩
      ⟨"domains/x/media".toList, "domains/x/dir.tmpl".toList⟩ worldListing "/docs".toList
      ["a.txt".toList, "b.txt".toList] ["sub".toList]).1 (by rfl),
   (C8_listing_page_model demoSys ⟨"domains/x/media".toList⟩
      ⟨"domains/x/media".toList, "domains/x/dir.tmpl".toList⟩ worldListing "/docs".toList
      ["a.txt".toList, "b.txt".toList] ["sub".toList]).2.1 (by rfl)⟩

/-! ## The claims about paths -/

/-- Cleaning a rooted path gives a rooted clean path. -/
theorem Clean_rooted_clean (u : Str) : IsRootedClean (Clean ('/' :: u)) := by
  obtain ⟨hn, hd⟩ := cleanedOf_inv true ('/' :: u)
  have hd0 := hd rfl
  refine ⟨(cleanedOf true ('/' :: u)).names.reverse,
    fun e he => hn e (List.mem_reverse.mp he), ?_⟩
  rw [Clean_eq_cleanElems]
  simp only [cleanElems, decide_True]
  rw [if_neg (render_length_pos_rooted _)]
  have : cleanedOf true ('/' :: u) = ⟨0, (cleanedOf true ('/' :: u)).names⟩ := by
    rw [← hd0]
  rw [this, render_rooted]

/-- The second cleaning of `ServeHTTP`, by `filepath.Join("/", ...)`, changes nothing. -/
theorem requestedFile_eq (u : Str) : requestedFile u = Clean ('/' :: u) := by
  obtain ⟨g, hg, hq⟩ := Clean_rooted_clean u
  have h := Clean_append true 0 [] g (by simp) (by simp) (Or.inl rfl) hg
  simp only [render_nil_rooted, List.append_nil, render_rooted, List.reverse_reverse] at h
  simp only [requestedFile, slash, FromSlash, Join]
  have hx : String.toList "/" = ['/'] := rfl
  rw [hx]
  simp only [List.singleton_append, hq]
  simpa [stringsJoin] using h

theorem Join_render (rooted : Bool) (k : Nat) (names g : List Str)
    (hnames : ∀ e ∈ names, IsName e) (hroot : rooted = true → k = 0)
    (hne : ¬ (k = 0 ∧ names = [])) (hg : ∀ e ∈ g, IsName e) :
    Join [Cleaned.render rooted ⟨k, names⟩, '/' :: stringsJoin g ['/']] =
      if g = [] then Cleaned.render rooted ⟨k, names⟩
      else Cleaned.render rooted ⟨k, names⟩ ++ '/' :: stringsJoin g ['/'] := by
  have h := Clean_append rooted k names g hnames hroot (Or.inr hne) hg
  obtain ⟨c, rest, hD, _⟩ := render_head rooted k names hnames (Or.inr hne)
  have hj : Join [Cleaned.render rooted ⟨k, names⟩, '/' :: stringsJoin g ['/']] =
      Clean (Cleaned.render rooted ⟨k, names⟩ ++ '/' :: '/' :: stringsJoin g ['/']) := by
    rw [hD]
    simp [Join, stringsJoin]
  rw [hj, h]
  by_cases hgn : g = []
  · subst hgn; simp
  · rw [if_neg hgn, render_append rooted k names g hgn hne]

/-- The root of a `mediafs` backend, `filepath.Join(root, "media")`, is the
bytes of a `Cleaned` whose last name is `media`. -/
theorem mediafs_root_form (root : Str) :
    ∃ (rooted : Bool) (k : Nat) (ns : List Str),
      (∀ e ∈ mediaName :: ns, IsName e) ∧ (rooted = true → k = 0) ∧
      Join [root, mediaName] = Cleaned.render rooted ⟨k, mediaName :: ns⟩ := by
  have hm : IsName mediaName := by decide
  have hms : '/' ∉ mediaName := hm.2.2.2
  cases root with
  | nil => exact ⟨false, 0, [], by simpa using hm, by simp, by decide⟩
  | cons c cs =>
    obtain ⟨hn, hd⟩ := cleanedOf_inv (decide (c = '/')) (c :: cs)
    refine ⟨decide (c = '/'), (cleanedOf (decide (c = '/')) (c :: cs)).dots,
      (cleanedOf (decide (c = '/')) (c :: cs)).names, ?_, hd, ?_⟩
    · intro e he
      rcases List.mem_cons.mp he with h | h
      · exact h ▸ hm
      · exact hn e h
    · have hj : Join [c :: cs, mediaName] = Clean (c :: (cs ++ '/' :: mediaName)) := by
        simp [Join, stringsJoin]
      have hf : cleanedOf (decide (c = '/')) (c :: (cs ++ '/' :: mediaName)) =
          ⟨(cleanedOf (decide (c = '/')) (c :: cs)).dots,
            mediaName :: (cleanedOf (decide (c = '/')) (c :: cs)).names⟩ := by
        have : c :: (cs ++ '/' :: mediaName) = (c :: cs) ++ '/' :: mediaName := rfl
        rw [this, cleanedOf, elems_append_slash, List.foldl_append,
          elems_of_no_slash mediaName hms]
        simp only [List.foldl_cons, List.foldl_nil]
        rw [step_name _ _ _ hm]
        rfl
      rw [hj, Clean_eq_cleanElems]
      simp only [cleanElems]
      rw [hf, if_neg (render_length_ne_zero _ _ _ (by
          intro e he
          rcases List.mem_cons.mp he with h | h
          · exact h ▸ hm
          · exact hn e h) (Or.inr (by simp)))]

/-- Joining a rooted clean path onto the root of a `mediafs` backend appends it. -/
theorem Join_mediafs_root (root p : Str) (hp : IsRootedClean p) :
    Join [Join [root, mediaName], p] =
      if p = ['/'] then Join [root, mediaName] else Join [root, mediaName] ++ p := by
  obtain ⟨rooted, k, ns, hn, hr, hD⟩ := mediafs_root_form root
  obtain ⟨g, hg, hq⟩ := hp
  rw [hD, hq, Join_render rooted k (mediaName :: ns) g hn hr (by simp) hg]
  by_cases hgn : g = []
  · subst hgn; simp [stringsJoin]
  · have : stringsJoin g ['/'] ≠ [] :=
      stringsJoin_ne_nil g ['/'] hgn (fun e he => (hg e he).1)
    simp [hgn, this]

theorem Within_of_append (D p : Str) (hp : IsRootedClean p) :
    Within D (if p = ['/'] then D else D ++ p) := by
  by_cases h : p = ['/']
  · rw [if_pos h]; exact Or.inl rfl
  · rw [if_neg h]
    obtain ⟨g, _, hq⟩ := hp
    right
    rw [hq]
    exact ⟨stringsJoin g ['/'], by simp⟩

/-- C2 (counterexample): the backend of domain `x` is rooted at
`domains/x/media`; for the request `/../../secret` `Read` stats and opens
`domains/secret`, which is not within the root, and returns that file, in
`src/lib/mediafs.go` and in `src/pkg/mediafs`. -/
theorem C2_parent_escape_counterexample :
    Join ["domains/x".toList, mediaName] = "domains/x/media".toList ∧
    mediafs.readPath ⟨"domains/x/media".toList⟩ "/../../secret".toList
      = "domains/secret".toList ∧
    Pkg.mediafs.readPath ⟨"domains/x/media".toList, "domains/x/dir.tmpl".toList⟩
      "/../../secret".toList = "domains/secret".toList ∧
    ¬ Within "domains/x/media".toList "domains/secret".toList ∧
    mediafs.Read demoSys ⟨"domains/x/media".toList⟩ worldSecret "/../../secret".toList
      = .ok (.file "domains/secret".toList) ∧
    Pkg.mediafs.Read demoSys enoent ⟨"domains/x/media".toList, "domains/x/dir.tmpl".toList⟩
      worldSecret "/../../secret".toList = .ok (.file "domains/secret".toList) := by
  refine ⟨by decide, by decide, by decide, by decide, by rfl, by rfl⟩

/-- C2 (amended): for a `mediafs` backend, whose root `D` is
`filepath.Join(root, "media")`, and for every rooted clean request path `p` (a
slash, then names separated by single slashes: what the dispatcher passes), the
path `filepath.Join(D, p)` that `Read` stats and opens is `D` when `p` is `/`
and `D` followed by `p` otherwise: it is `D` or lies beneath `D`.  The same
holds in `src/pkg/mediafs`. -/
theorem C2_read_path_within_root (root templ p : Str) (hp : IsRootedClean p) :
    mediafs.readPath ⟨Join [root, mediaName]⟩ p =
      (if p = ['/'] then Join [root, mediaName] else Join [root, mediaName] ++ p) ∧
    Within (Join [root, mediaName]) (mediafs.readPath ⟨Join [root, mediaName]⟩ p) ∧
    Pkg.mediafs.readPath ⟨Join [root, mediaName], templ⟩ p =
      mediafs.readPath ⟨Join [root, mediaName]⟩ p := by
  have h := Join_mediafs_root root p hp
  refine ⟨h, ?_, rfl⟩
  rw [mediafs.readPath, h]
  exact Within_of_append _ p hp

/-- C2 (instance): the request `/a/b` on the backend of domain `x`. -/
theorem C2_read_path_within_root_witness :
    mediafs.readPath ⟨Join ["domains/x".toList, mediaName]⟩ "/a/b".toList =
      (if "/a/b".toList = ['/'] then Join ["domains/x".toList, mediaName]
        else Join ["domains/x".toList, mediaName] ++ "/a/b".toList) ∧
    Within (Join ["domains/x".toList, mediaName])
      (mediafs.readPath ⟨Join ["domains/x".toList, mediaName]⟩ "/a/b".toList) ∧
    Pkg.mediafs.readPath ⟨Join ["domains/x".toList, mediaName], "domains/x/dir.tmpl".toList⟩
        "/a/b".toList =
      mediafs.readPath ⟨Join ["domains/x".toList, mediaName]⟩ "/a/b".toList :=
  C2_read_path_within_root "domains/x".toList "domains/x/dir.tmpl".toList "/a/b".toList
    ⟨["a".toList, "b".toList], by decide, by decide⟩

/-- C5: whenever `ServeHTTP` finds a backend for the request `r`, the path it
passes to the backend's `Read` (and to `http.ServeContent`) is
`filepath.Join("/", filepath.FromSlash(path.Clean("/"+r.URL.Path)))`, and this
path is a slash followed by names separated by single slashes, a name being not
empty, not `.`, not `..` and without a slash: it is `/` itself, or every
element between its slashes, behind the leading one, is such a name.  It is
`path.Clean("/"+r.URL.Path)`.  Joined onto the root `D` of a `mediafs` backend
it gives `D` for the path `/` and `D` followed by the path otherwise, so `D` or
a path beneath `D`. -/
theorem C5_requested_file_clean {W B : Type} (sys : Sys W B) (sm : sectionMux B) (w : W)
    (r : Request) :
    (∀ (key : Str) (fs : webfs B) (sm1 : sectionMux B) (w1 : W),
      hostKey r.Host = some key →
      sectionMux.Lookup sys sm w key = (some fs, sm1, w1) →
      sectionMux.ServeHTTP sys sm w r =
        some (respond (requestedFile r.Path) (fs.Read sys w1 (requestedFile r.Path)),
          sm1, w1)) ∧
    (∃ names : List Str,
      (∀ e ∈ names, e ≠ [] ∧ e ≠ ['.'] ∧ e ≠ ['.', '.'] ∧ '/' ∉ e) ∧
      requestedFile r.Path = '/' :: stringsJoin names ['/']) ∧
    (requestedFile r.Path).head? = some '/' ∧
    (requestedFile r.Path = ['/'] ∨
      ∀ e ∈ elems (requestedFile r.Path).tail, e ≠ [] ∧ e ≠ ['.'] ∧ e ≠ ['.', '.']) ∧
    requestedFile r.Path = Clean ('/' :: r.Path) ∧
    ∀ root : Str,
      mediafs.readPath ⟨Join [root, mediaName]⟩ (requestedFile r.Path) =
        (if requestedFile r.Path = ['/'] then Join [root, mediaName]
          else Join [root, mediaName] ++ requestedFile r.Path) ∧
      Within (Join [root, mediaName])
        (mediafs.readPath ⟨Join [root, mediaName]⟩ (requestedFile r.Path)) := by
  have hq : IsRootedClean (requestedFile r.Path) := by
    rw [requestedFile_eq]; exact Clean_rooted_clean r.Path
  refine ⟨?_, hq, ?_, ?_, requestedFile_eq r.Path, fun root => ?_⟩
  · intro key fs sm1 w1 hkey hlookup
    simp only [sectionMux.ServeHTTP, hkey, hlookup]
  · obtain ⟨g, _, hg⟩ := hq
    rw [hg]; rfl
  · obtain ⟨g, hn, hg⟩ := hq
    by_cases hgn : g = []
    · left
      rw [hg, hgn]; rfl
    · right
      rw [hg, List.tail_cons, elems_stringsJoin g hgn (fun e he => (hn e he).2.2.2)]
      intro e he
      exact ⟨(hn e he).1, (hn e he).2.1, (hn e he).2.2.1⟩
  · have h := Join_mediafs_root root (requestedFile r.Path) hq
    refine ⟨h, ?_⟩
    rw [mediafs.readPath, h]
    exact Within_of_append _ _ hq

/-- C5 (instance): the request `requestDots` for `/../x/./..//a.txt` on host `x`
in `worldMedia`: `ServeHTTP` passes `/a.txt` to the `Read` of the backend of
domain `x`. -/
theorem C5_requested_file_clean_witness :
    requestedFile requestDots.Path = "/a.txt".toList ∧
    sectionMux.ServeHTTP demoSys (sectionMux.empty Unit) worldMedia requestDots =
      some (respond (requestedFile requestDots.Path)
          (webfs.Read demoSys (.media ⟨"domains/x/media".toList⟩) worldMedia
            (requestedFile requestDots.Path)),
        (sectionMux.empty Unit).set "x/".toList (.media ⟨"domains/x/media".toList⟩),
        worldMedia) :=
  ⟨by decide,
   (C5_requested_file_clean demoSys (sectionMux.empty Unit) worldMedia requestDots).1
      "x/".toList (.media ⟨"domains/x/media".toList⟩)
      ((sectionMux.empty Unit).set "x/".toList (.media ⟨"domains/x/media".toList⟩))
      worldMedia (by decide) (by rfl)⟩

/-- C10 (the code at the failing input): the Host value `..` has no colon and
gets the key `../`; `newWebfs` then works on the domain root `.`, the working
directory, which is not within `domains`, reads the type file `type` there and,
in a world where that file says "media", binds a backend rooted at `media`,
outside the domains directory; the dispatcher serves from it. -/
theorem C10_host_dotdot_leaves_domains :
    ':' ∉ "..".toList ∧
    hostKey "..".toList = some "../".toList ∧
    Clean domainDir = "domains".toList ∧
    domainRoot "../".toList = ".".toList ∧
    ¬ Within "domains".toList (domainRoot "../".toList) ∧
    Join [domainRoot "../".toList, typeFile] = "type".toList ∧
    (newWebfs demoSys worldCwd "../".toList).1 = .ok (.media ⟨"media".toList⟩) ∧
    ¬ Within "domains".toList "media".toList ∧
    (sectionMux.ServeHTTP demoSys (sectionMux.empty Unit) worldCwd
        ⟨"..".toList, "/".toList⟩).map (fun r => r.1) ≠ some .notFound := by
  refine ⟨by decide, by decide, by decide, by decide, by decide, by decide, by rfl, by decide,
    by decide⟩

end SimpleBlog
